import Mathlib

/-!
# BlurExprmt.c : partitioned 3x3 box blur with a bounded ring of worker threads

Shallow embedding of `src/BlurExprmt.c` (`run_exprmt`, `blur_section`) and the
properties of its partition arithmetic, blur kernel and dispatch loop.

Conventions of the embedding

* C `int` coordinates and sizes are `Int`; the two divisions of `run_exprmt`
  are C divisions (truncation towards zero), `Int.tdiv`.  The sizes involved are
  bounded by the picture dimensions, so 32-bit wrap-around is not modelled.
* The channel sums, the loop counters of the dispatch loop and the ring slots
  never go below zero and are natural numbers; a sum of nine 8-bit values is at
  most `9 * 255`.  Storing a sum in an 8-bit channel is `% 256` (`to_channel`).
* A `for (int i = a; i < b; i++)` loop is a fold over `int_range a b`.
* A worker thread is run as one atomic step (`blur_section`), and a schedule is
  the order in which the workers are run.
* The thread library is modelled by the trace of `pthread_create` /
  `pthread_join` calls that the dispatch loop makes.
* Where it matters which picture a pointer designates, the state is a `store`
  of the caller's picture and the temporary copy, and a worker carries its
  pointer field (`thread_arg`).
-/

namespace BlurExprmt

/-! ## Data model -/

/-- Modelled from the spec: `struct pixel` is declared in `Picture.h`/`Utils.h`,
which are not part of the sources at hand.  The spec describes a pixel as three
independent 8-bit channel values (red, green, blue), no alpha. -/
structure pixel where
  red : Fin 256
  green : Fin 256
  blue : Fin 256
deriving DecidableEq, Repr

/-- Modelled from the spec: `struct picture` is declared in `Picture.h`.  It has
the fields `width`, `height` (C `int`) and `img`, the pixel buffer.  The buffer
is only ever addressed by coordinates, through `get_pixel` and `set_pixel`, so
it is represented by the map from a coordinate pair to the pixel stored there. -/
structure picture where
  width : Int
  height : Int
  img : Int → Int → pixel

/-- Modelled from the spec: the coordinate check of the image collaborator,
`0 ≤ x < width` and `0 ≤ y < height`. -/
def in_bounds (pic : picture) (x y : Int) : Prop :=
  0 ≤ x ∧ x < pic.width ∧ 0 ≤ y ∧ y < pic.height

instance (pic : picture) (x y : Int) : Decidable (in_bounds pic x y) := by
  unfold in_bounds; infer_instance

/-- Modelled from the spec: `get_pixel(image, x, y) -> Pixel` of `Picture.h`.
An out-of-range access is a defined error (`none`). -/
def get_pixel (pic : picture) (x y : Int) : Option pixel :=
  if in_bounds pic x y then some (pic.img x y) else none

/-- Modelled from the spec: `set_pixel(image, x, y, Pixel)` of `Picture.h`.  It
overwrites the pixel at `(x, y)` and no other; an out-of-range access is a
defined error (`none`). -/
def set_pixel (pic : picture) (x y : Int) (rgb : pixel) : Option picture :=
  if in_bounds pic x y then
    some { pic with img := fun a b => if a = x ∧ b = y then rgb else pic.img a b }
  else none

/-- Modelled from the spec: `copy_image` (`duplicate(image) -> Image`) returns a
deep, independent copy of a pixel buffer. -/
def copy_image (img : Int → Int → pixel) : Int → Int → pixel := img

/-- The `#define BLUR_REGION_SIZE 9`. -/
def BLUR_REGION_SIZE : Nat := 9

/-- The `struct worker`: the section a thread blurs.  The field `pic_initial`
(the shared picture the thread writes to) is passed to `blur_section` as the
state, and `p_thread` is never used. -/
structure worker where
  top_left_x : Int
  top_left_y : Int
  height : Int
  width : Int
deriving DecidableEq, Repr

/-- The values `a, a+1, ..., b-1` taken by the variable of
`for (int i = a; i < b; i++)`. -/
def int_range (lo hi : Int) : List Int :=
  (List.range (hi - lo).toNat).map (fun (k : Nat) => lo + (k : Int))

/-- Assignment of an `int` to an 8-bit channel: the value modulo 256. -/
def to_channel (v : Nat) : Fin 256 := ⟨v % 256, Nat.mod_lt _ (by decide)⟩

/-! ## blur_section -/

/-- The three running sums `sum_red`, `sum_green`, `sum_blue`. -/
structure channel_sums where
  sum_red : Nat
  sum_green : Nat
  sum_blue : Nat
deriving DecidableEq, Repr

/-- Body of the innermost loop of `blur_section`: read a pixel of the thread's
private copy and add its channels to the sums. -/
def add_pixel (tmp_pic : picture) (i j : Int) (n : Int) (s : channel_sums) (m : Int) :
    Option channel_sums :=
  (get_pixel tmp_pic (i + n) (j + m)).map fun rgb =>
    { sum_red := s.sum_red + rgb.red.val,
      sum_green := s.sum_green + rgb.green.val,
      sum_blue := s.sum_blue + rgb.blue.val }

/-- The loops `for n = -1..1`, `for m = -1..1` of `blur_section` at pixel
`(i, j)`, starting from sums 0. -/
def neighbourhood_sums (tmp_pic : picture) (i j : Int) : Option channel_sums :=
  (int_range (-1) (1 + 1)).foldlM
    (fun s n => (int_range (-1) (1 + 1)).foldlM (add_pixel tmp_pic i j n) s)
    { sum_red := 0, sum_green := 0, sum_blue := 0 }

/-- The pixel `rgb` after `rgb.red = sum_red / BLUR_REGION_SIZE` and so on. -/
def averaged (s : channel_sums) : pixel :=
  { red := to_channel (s.sum_red / BLUR_REGION_SIZE),
    green := to_channel (s.sum_green / BLUR_REGION_SIZE),
    blue := to_channel (s.sum_blue / BLUR_REGION_SIZE) }

/-- Body of the `j` loop of `blur_section`: sums are read from `tmp_pic`, the
averaged pixel is written to the shared picture.  The source does not test
what `get_pixel` returns; here `none` only marks a run that has made an
out-of-range access, after which the embedding says nothing about the picture.
Every property below is about runs whose accesses are all in range, where this
body is the source's: nine reads, three divisions, one write. -/
def blur_pixel (tmp_pic : picture) (i : Int) (pic : picture) (j : Int) : Option picture :=
  (neighbourhood_sums tmp_pic i j).bind fun s => set_pixel pic i j (averaged s)

/-- The thread body `blur_section`, run without interruption on the shared
picture `pic` (the worker's `pic_initial` field).  It first takes its private
copy `tmp_pic` of the shared picture as it is at that moment. -/
def blur_section (w : worker) (pic : picture) : Option picture :=
  let tmp_pic : picture :=
    { img := copy_image pic.img, width := pic.width, height := pic.height }
  (int_range w.top_left_x (w.top_left_x + w.width)).foldlM
    (fun p i =>
      (int_range w.top_left_y (w.top_left_y + w.height)).foldlM (blur_pixel tmp_pic i) p)
    pic

/-! ## run_exprmt : the sections -/

/-- Body of the initialisation loop of `run_exprmt` for `workers[x][y]`; `w0` is
the content of the freshly allocated array cell.  The two `if`s set the width
of the last column and the height of the last row, and the four assignments
that follow them are unconditional. -/
def init_worker (w0 : worker) (pic_temp : picture) (x_divides y_divides x y : Int) : worker :=
  let section_width := (pic_temp.width - 2).tdiv x_divides
  let section_height := (pic_temp.height - 2).tdiv y_divides
  let w1 : worker :=
    if x = x_divides - 1 then
      { w0 with width := (pic_temp.width - 2) - ((x_divides - 1) * section_width) }
    else w0
  let w2 : worker :=
    if y = y_divides - 1 then
      { w1 with height := (pic_temp.width - 2) - ((y_divides - 1) * section_width) }
    else w1
  let w3 : worker := { w2 with width := section_width }
  let w4 : worker := { w3 with height := section_height }
  let w5 : worker := { w4 with top_left_x := 1 + section_width * x }
  { w5 with top_left_y := 1 + section_height * y }

/-! ## run_exprmt : the dispatch loop -/

/-- A call the dispatch loop makes to the thread library.  A thread is named by
its ordinal (0 for the first one created); `create slot tid x y` is
`pthread_create(&p_threads[slot], NULL, blur_section, &workers[x][y])` and
`join slot h` is `pthread_join(p_threads[slot], NULL)`, where `h` is the handle
found in the slot (`none` if the slot was never written). -/
inductive thread_event where
  | create (slot : Nat) (tid : Nat) (x y : Int)
  | join (slot : Nat) (handle : Option Nat)
deriving DecidableEq, Repr

/-- Variables of the dispatch loop, and the calls made so far. -/
structure dispatch_state where
  p_threads : Nat → Option Nat
  counter : Nat
  setup_threads : Nat
  trace : List thread_event

/-- State before the dispatch loop: `counter = 0`, `setup_threads = 0`, the
array `p_threads` not yet written. -/
def dispatch_init : dispatch_state :=
  { p_threads := fun _ => none, counter := 0, setup_threads := 0, trace := [] }

/-- Body of the dispatch loop for `workers[x][y]`. -/
def dispatch_step (MAX_THREADS : Nat) (s : dispatch_state) (x y : Int) : dispatch_state :=
  let s1 : dispatch_state :=
    if s.setup_threads ≥ MAX_THREADS then
      { s with trace := s.trace ++ [thread_event.join s.counter (s.p_threads s.counter)] }
    else s
  let s2 : dispatch_state :=
    { s1 with
      p_threads := Function.update s1.p_threads s1.counter (some s1.setup_threads),
      trace := s1.trace ++ [thread_event.create s1.counter s1.setup_threads x y] }
  let s3 : dispatch_state :=
    { s2 with setup_threads := s2.setup_threads + 1, counter := s2.counter + 1 }
  if s3.counter ≥ MAX_THREADS then { s3 with counter := s3.counter - MAX_THREADS } else s3

/-- The dispatch loop `for x < x_divides, for y < y_divides`. -/
def dispatch_loop (MAX_THREADS : Nat) (x_divides y_divides : Int) : dispatch_state :=
  (int_range 0 x_divides).foldl
    (fun s x => (int_range 0 y_divides).foldl (fun s y => dispatch_step MAX_THREADS s x y) s)
    dispatch_init

/-- The number `working_threads` of slots the final loop joins. -/
def working_threads (MAX_THREADS : Nat) (s : dispatch_state) : Nat :=
  if MAX_THREADS < s.setup_threads then MAX_THREADS else s.setup_threads

/-- The final loop `for i < working_threads: pthread_join(p_threads[i])`. -/
def drain (MAX_THREADS : Nat) (s : dispatch_state) : dispatch_state :=
  (List.range (working_threads MAX_THREADS s)).foldl
    (fun s i => { s with trace := s.trace ++ [thread_event.join i (s.p_threads i)] }) s

/-- All thread-library calls of one `run_exprmt`, in program order. -/
def dispatch_trace (MAX_THREADS : Nat) (x_divides y_divides : Int) : List thread_event :=
  (drain MAX_THREADS (dispatch_loop MAX_THREADS x_divides y_divides)).trace

/-- The grid cell a `create` call passes to its thread. -/
def created_cell : thread_event → Option (Int × Int)
  | thread_event.create _ _ x y => some (x, y)
  | thread_event.join _ _ => none

/-- The slot and the thread ordinal of a `create` call. -/
def created_slot : thread_event → Option (Nat × Nat)
  | thread_event.create slot tid _ _ => some (slot, tid)
  | thread_event.join _ _ => none

/-- The slot and the handle of a `join` call. -/
def joined_slot : thread_event → Option (Nat × Option Nat)
  | thread_event.create _ _ _ _ => none
  | thread_event.join slot h => some (slot, h)

/-- Number of threads created and not yet joined after the calls of `tr`. -/
def live_threads (tr : List thread_event) : Int :=
  ((tr.filterMap created_slot).length : Int) - ((tr.filterMap joined_slot).length : Int)

/-- State of the dispatch loop after the iterations for the cells `cs`. -/
def dispatch_cells (MAX_THREADS : Nat) (cs : List (Int × Int)) : dispatch_state :=
  cs.foldl (fun s c => dispatch_step MAX_THREADS s c.1 c.2) dispatch_init

/-- Invariant of the dispatch loop after `k` iterations: the ring holds the
last `min k MAX_THREADS` threads, thread `t` in slot `t mod MAX_THREADS`; the
threads `0 .. k-1` have been created in this order and the threads
`0 .. k-MAX_THREADS-1` joined in this order; at most `MAX_THREADS` threads were
ever live; every join stands right before the create that reuses its slot. -/
structure ring_inv (MAX_THREADS k : Nat) (s : dispatch_state) : Prop where
  setup : s.setup_threads = k
  counter : s.counter = k % MAX_THREADS
  slots : ∀ i t, s.p_threads i = some t ↔ (t < k ∧ k ≤ t + MAX_THREADS ∧ t % MAX_THREADS = i)
  filled : ∀ i, i < MAX_THREADS → i < k → ∃ t, s.p_threads i = some t
  creates : s.trace.filterMap created_slot = (List.range k).map fun t => (t % MAX_THREADS, t)
  joins : s.trace.filterMap joined_slot
    = (List.range (k - MAX_THREADS)).map fun t => (t % MAX_THREADS, some t)
  live : ∀ pre, pre <+: s.trace → live_threads pre ≤ MAX_THREADS
  reuse : ∀ slot tid x y, thread_event.create slot tid x y ∈ s.trace → MAX_THREADS ≤ tid →
    ∃ pre post, s.trace = pre ++ thread_event.join slot (some (tid - MAX_THREADS))
      :: thread_event.create slot tid x y :: post
  rejoin : ∀ slot h, thread_event.join slot h ∈ s.trace →
    ∃ pre post t x y, h = some t ∧ s.trace = pre ++ thread_event.join slot (some t)
      :: thread_event.create slot (t + MAX_THREADS) x y :: post

/-! ## run_exprmt : the whole experiment -/

/-- The worker arguments of the threads `run_exprmt` creates, in issue order:
the thread created for cell `(x, y)` gets `&workers[x][y]`.  `mem` is the
content of the array `workers` as allocated. -/
def issued_workers (MAX_THREADS : Nat) (mem : Int → Int → worker) (pic_temp : picture)
    (x_divides y_divides : Int) : List worker :=
  ((dispatch_trace MAX_THREADS x_divides y_divides).filterMap created_cell).map
    fun c => init_worker (mem c.1 c.2) pic_temp x_divides y_divides c.1 c.2

/-- The temporary copy `pic_temp` that `run_exprmt` makes of its argument. -/
def copy_picture (pic_initial : picture) : picture :=
  { img := copy_image pic_initial.img, width := pic_initial.width, height := pic_initial.height }

/-- The threads of `order` run one after another on the shared picture. -/
def run_workers (order : List worker) (pic : picture) : Option picture :=
  order.foldlM (fun p w => blur_section w p) pic

/-- The picture `pic_temp` that `run_exprmt` saves at its end, when its threads
run one after another in issue order. -/
def run_exprmt (MAX_THREADS : Nat) (mem : Int → Int → worker) (pic_initial : picture)
    (x_divides y_divides : Int) : Option picture :=
  let pic_temp := copy_picture pic_initial
  run_workers (issued_workers MAX_THREADS mem pic_temp x_divides y_divides) pic_temp

/-- Membership of pixel `(i, j)` in the rectangle the loops of `blur_section`
range over for worker `w`. -/
def in_section (w : worker) (i j : Int) : Prop :=
  w.top_left_x ≤ i ∧ i < w.top_left_x + w.width ∧
    w.top_left_y ≤ j ∧ j < w.top_left_y + w.height

instance (w : worker) (i j : Int) : Decidable (in_section w i j) := by
  unfold in_section; infer_instance

/-- The channel sums over the nine pixels `(i+n, j+m)`, `n, m ∈ {-1, 0, 1}`,
read directly from the buffer of `src`, in the order of the two loops. -/
def box_sums (src : picture) (i j : Int) : channel_sums :=
  { sum_red := (src.img (i-1) (j-1)).red.val + (src.img (i-1) j).red.val
      + (src.img (i-1) (j+1)).red.val + (src.img i (j-1)).red.val + (src.img i j).red.val
      + (src.img i (j+1)).red.val + (src.img (i+1) (j-1)).red.val
      + (src.img (i+1) j).red.val + (src.img (i+1) (j+1)).red.val,
    sum_green := (src.img (i-1) (j-1)).green.val + (src.img (i-1) j).green.val
      + (src.img (i-1) (j+1)).green.val + (src.img i (j-1)).green.val + (src.img i j).green.val
      + (src.img i (j+1)).green.val + (src.img (i+1) (j-1)).green.val
      + (src.img (i+1) j).green.val + (src.img (i+1) (j+1)).green.val,
    sum_blue := (src.img (i-1) (j-1)).blue.val + (src.img (i-1) j).blue.val
      + (src.img (i-1) (j+1)).blue.val + (src.img i (j-1)).blue.val + (src.img i j).blue.val
      + (src.img i (j+1)).blue.val + (src.img (i+1) (j-1)).blue.val
      + (src.img (i+1) j).blue.val + (src.img (i+1) (j+1)).blue.val }

/-- The 3x3 box average at `(i, j)` of the buffer of `src`: each channel is the
sum over the nine pixels `(i+n, j+m)` divided by 9. -/
def box_average (src : picture) (i j : Int) : pixel := averaged (box_sums src i j)

/-- The interior of a picture: the pixels not on the outermost ring,
`1 ≤ x ≤ width - 2` and `1 ≤ y ≤ height - 2`. -/
def interior (pic : picture) (x y : Int) : Prop :=
  1 ≤ x ∧ x ≤ pic.width - 2 ∧ 1 ≤ y ∧ y ≤ pic.height - 2

instance (pic : picture) (x y : Int) : Decidable (interior pic x y) := by
  unfold interior; infer_instance

/-- The picture in which the pixels of the section of `w` hold the box average
of `pic` and all other pixels are those of `pic`. -/
def blurred_in (w : worker) (pic : picture) : picture :=
  { pic with img := fun a b => if in_section w a b then box_average pic a b else pic.img a b }

/-- The grid cells in the order of the loops `for x < x_divides`,
`for y < y_divides`. -/
def grid_cells (x_divides y_divides : Int) : List (Int × Int) :=
  (int_range 0 x_divides).flatMap fun x => (int_range 0 y_divides).map fun y => (x, y)

/-- The least of the nine values of channel `ch` over the pixels `(i+n, j+m)`,
`n, m ∈ {-1, 0, 1}`, of `src`. -/
def neighbourhood_min (src : picture) (ch : pixel → Fin 256) (i j : Int) : Nat :=
  min (ch (src.img (i-1) (j-1))).val (min (ch (src.img (i-1) j)).val
    (min (ch (src.img (i-1) (j+1))).val (min (ch (src.img i (j-1))).val
      (min (ch (src.img i j)).val (min (ch (src.img i (j+1))).val
        (min (ch (src.img (i+1) (j-1))).val (min (ch (src.img (i+1) j)).val
          (ch (src.img (i+1) (j+1))).val)))))))

/-- The greatest of the nine values of channel `ch` over the pixels
`(i+n, j+m)`, `n, m ∈ {-1, 0, 1}`, of `src`. -/
def neighbourhood_max (src : picture) (ch : pixel → Fin 256) (i j : Int) : Nat :=
  max (ch (src.img (i-1) (j-1))).val (max (ch (src.img (i-1) j)).val
    (max (ch (src.img (i-1) (j+1))).val (max (ch (src.img i (j-1))).val
      (max (ch (src.img i j)).val (max (ch (src.img i (j+1))).val
        (max (ch (src.img (i+1) (j-1))).val (max (ch (src.img (i+1) j)).val
          (ch (src.img (i+1) (j+1))).val)))))))

/-- A `3 x 3` picture in which every pixel is white, `(255, 255, 255)`. -/
def pic_white : picture :=
  { width := 3, height := 3, img := fun _ _ => { red := 255, green := 255, blue := 255 } }

/-- The coordinates `blur_section` passes to `get_pixel` for worker `w`, in
program order: `(i + n, j + m)` over the four nested loops. -/
def get_coords (w : worker) : List (Int × Int) :=
  (int_range w.top_left_x (w.top_left_x + w.width)).flatMap fun i =>
    (int_range w.top_left_y (w.top_left_y + w.height)).flatMap fun j =>
      (int_range (-1) (1 + 1)).flatMap fun n =>
        (int_range (-1) (1 + 1)).map fun m => (i + n, j + m)

/-- The coordinates `blur_section` passes to `set_pixel` for worker `w`, in
program order: `(i, j)` over the two outer loops. -/
def set_coords (w : worker) : List (Int × Int) :=
  (int_range w.top_left_x (w.top_left_x + w.width)).flatMap fun i =>
    (int_range w.top_left_y (w.top_left_y + w.height)).map fun j => (i, j)

/-! ## run_exprmt : the caller's picture and the temporary copy -/

/-- What a `struct picture *` of the program designates: the picture of the
caller of `run_exprmt` (the `pic_initial` of `main`) or the local `pic_temp`. -/
inductive pic_ref where
  | caller
  | temp
deriving DecidableEq, Repr

/-- The two pictures alive during a call of `run_exprmt`. -/
structure store where
  caller : picture
  temp : picture

/-- The `struct worker` together with its pointer field `pic_initial`; `area`
holds the four fields of the section. -/
structure thread_arg where
  pic_initial : pic_ref
  area : worker

/-- Body of the initialisation loop of `run_exprmt`, the assignment
`workers[x][y].pic_initial = &pic_temp` included. -/
def init_thread_arg (a0 : thread_arg) (pic_temp : picture) (x_divides y_divides x y : Int) :
    thread_arg :=
  let a1 : thread_arg := { a0 with pic_initial := pic_ref.temp }
  { a1 with area := init_worker a1.area pic_temp x_divides y_divides x y }

/-- The thread body `blur_section` with its pointer: `pic = worker->pic_initial`,
the private copy is taken from `*pic` and the pixels are written to `*pic`. -/
def blur_section_at (a : thread_arg) (st : store) : Option store :=
  match a.pic_initial with
  | pic_ref.caller => (blur_section a.area st.caller).map fun p => { st with caller := p }
  | pic_ref.temp => (blur_section a.area st.temp).map fun p => { st with temp := p }

/-- The arguments of the threads `run_exprmt` creates, in issue order, pointer
field included. -/
def issued_args (MAX_THREADS : Nat) (mem : Int → Int → thread_arg) (pic_temp : picture)
    (x_divides y_divides : Int) : List thread_arg :=
  ((dispatch_trace MAX_THREADS x_divides y_divides).filterMap created_cell).map
    fun c => init_thread_arg (mem c.1 c.2) pic_temp x_divides y_divides c.1 c.2

/-- The threads of `order` run one after another on the two pictures. -/
def run_threads (order : List thread_arg) (st : store) : Option store :=
  order.foldlM (fun st a => blur_section_at a st) st

/-- The caller's picture after a call `run_exprmt(&pic_initial, x_divides,
y_divides)`, the threads running in issue order. -/
def run_exprmt_caller (MAX_THREADS : Nat) (mem : Int → Int → thread_arg) (pic_initial : picture)
    (x_divides y_divides : Int) : Option picture :=
  let pic_temp := copy_picture pic_initial
  (run_threads (issued_args MAX_THREADS mem pic_temp x_divides y_divides)
    { caller := pic_initial, temp := pic_temp }).map fun st => st.caller

/-- The grids of the array `experiments` of `main`, in its order. -/
def experiments (pic_initial : picture) : List (Int × Int) :=
  let total_sect_width := pic_initial.width - 2
  let total_sect_height := pic_initial.height - 2
  [(1, 1), (1, total_sect_height), (total_sect_width, 1), (2, 2), (4, 4), (8, 8),
    (16, 16), (32, 32), (64, 64), (total_sect_width, total_sect_height)]

/-- The loop of `main` over the experiments, each a call of `run_exprmt` on the
picture of `main`.  The result is the list of the pictures the experiments
started from, and the picture of `main` after the loop. -/
def run_experiments (MAX_THREADS : Nat) (mem : Int → Int → thread_arg) :
    List (Int × Int) → picture → Option (List picture × picture)
  | [], pic => some ([], pic)
  | e :: es, pic =>
    (run_exprmt_caller MAX_THREADS mem pic e.1 e.2).bind fun pic' =>
      (run_experiments MAX_THREADS mem es pic').map fun r => (pic :: r.1, r.2)

/-! ## Concrete pictures used to evaluate the code -/

/-- A black pixel with the given red value. -/
def red_pixel (r : Fin 256) : pixel := { red := r, green := 0, blue := 0 }

/-- A `4 x 3` picture (interior `2 x 1`), black except for red 90 at `(1, 1)`. -/
def pic_4x3 : picture :=
  { width := 4, height := 3,
    img := fun x y => if x = 1 ∧ y = 1 then red_pixel 90 else red_pixel 0 }

/-- A `5 x 5` picture (interior `3 x 3`), black except for red 90 at `(3, 1)`. -/
def pic_5x5 : picture :=
  { width := 5, height := 5,
    img := fun x y => if x = 3 ∧ y = 1 then red_pixel 90 else red_pixel 0 }

/-- A `3 x 3` picture (interior `1 x 1`) with red 90 at `(1, 1)`. -/
def pic_3x3 : picture :=
  { width := 3, height := 3,
    img := fun x y => if x = 1 ∧ y = 1 then red_pixel 90 else red_pixel 0 }

/-- A `4 x 3` picture in which every pixel has the colour `(7, 8, 9)`. -/
def pic_uniform : picture :=
  { width := 4, height := 3, img := fun _ _ => { red := 7, green := 8, blue := 9 } }

/-- The colour `(0, 0, 0)`. -/
def black : pixel := { red := 0, green := 0, blue := 0 }

/-- A `7 x 7` picture (interior `5 x 5`), black except for the colour
`(90, 45, 9)` at the interior pixel `(2, 3)`. -/
def pic_7x7 : picture :=
  { width := 7, height := 7,
    img := fun x y => if x = 2 ∧ y = 3 then { red := 90, green := 45, blue := 9 } else black }

/-- The array `workers` as allocated, pointer field included, here with the
pointers designating the caller's picture and the sections filled with zeros. -/
def mem_args0 : Int → Int → thread_arg :=
  fun _ _ =>
    { pic_initial := pic_ref.caller,
      area := { top_left_x := 0, top_left_y := 0, height := 0, width := 0 } }

/-- The array `workers` as allocated, here filled with zeros. -/
def mem0 : Int → Int → worker :=
  fun _ _ => { top_left_x := 0, top_left_y := 0, height := 0, width := 0 }

/-! ## Loops and ranges -/

theorem mem_int_range (lo hi a : Int) : a ∈ int_range lo hi ↔ lo ≤ a ∧ a < hi := by
  unfold int_range
  simp only [List.mem_map, List.mem_range]
  constructor
  · rintro ⟨k, hk, rfl⟩
    omega
  · rintro ⟨h1, h2⟩
    refine ⟨(a - lo).toNat, ?_, ?_⟩ <;> omega

theorem nodup_int_range (lo hi : Int) : (int_range lo hi).Nodup := by
  unfold int_range
  refine List.Nodup.map ?_ (List.nodup_range _)
  intro a b h
  simp only at h
  omega

theorem length_int_range (lo hi : Int) : (int_range lo hi).length = (hi - lo).toNat := by
  simp [int_range]

theorem int_range_kernel : int_range (-1) (1 + 1) = [-1, 0, 1] := by decide

theorem mem_grid_cells (x_divides y_divides : Int) (c : Int × Int) :
    c ∈ grid_cells x_divides y_divides ↔
      0 ≤ c.1 ∧ c.1 < x_divides ∧ 0 ≤ c.2 ∧ c.2 < y_divides := by
  obtain ⟨x, y⟩ := c
  simp only [grid_cells, List.mem_flatMap, List.mem_map, mem_int_range, Prod.mk.injEq]
  constructor
  · rintro ⟨a, ha, b, hb, rfl, rfl⟩
    exact ⟨ha.1, ha.2, hb.1, hb.2⟩
  · rintro ⟨h1, h2, h3, h4⟩
    exact ⟨x, ⟨h1, h2⟩, y, ⟨h3, h4⟩, rfl, rfl⟩

theorem nodup_grid_cells (x_divides y_divides : Int) :
    (grid_cells x_divides y_divides).Nodup := by
  unfold grid_cells
  rw [List.nodup_flatMap]
  constructor
  · intro x _
    refine List.Nodup.map ?_ (nodup_int_range _ _)
    intro a b h
    simpa using h
  · refine List.Nodup.pairwise_of_forall_ne (nodup_int_range _ _) ?_
    intro a _ b _ hab
    simp only [Function.onFun]
    intro c hc1 hc2
    simp only [List.mem_map] at hc1 hc2
    obtain ⟨_, _, rfl⟩ := hc1
    obtain ⟨_, _, h⟩ := hc2
    simp only [Prod.mk.injEq] at h
    exact hab h.1.symm

theorem length_grid_cells (x_divides y_divides : Int) :
    (grid_cells x_divides y_divides).length = x_divides.toNat * y_divides.toNat := by
  unfold grid_cells
  rw [List.length_flatMap]
  have h : (List.length ∘ fun x : Int => (int_range 0 y_divides).map fun y => (x, y))
      = fun _ => y_divides.toNat := by
    funext x
    simp [length_int_range]
  rw [h, List.map_const', List.sum_replicate, length_int_range]
  simp

/-- A nest of two `for` loops is one loop over the pairs of indices. -/
theorem nested_foldl {σ α β : Type} (f : σ → α → β → σ) (xs : List α) (ys : List β) (s : σ) :
    xs.foldl (fun s x => ys.foldl (fun s y => f s x y) s) s
      = (xs.flatMap fun x => ys.map fun y => (x, y)).foldl (fun s c => f s c.1 c.2) s := by
  induction xs generalizing s with
  | nil => rfl
  | cons x xs ih =>
    rw [List.foldl_cons, ih, List.flatMap_cons, List.foldl_append, List.foldl_map]

/-! ## The blur kernel -/

theorem get_pixel_in_bounds (pic : picture) (x y : Int) (h : in_bounds pic x y) :
    get_pixel pic x y = some (pic.img x y) := by
  simp [get_pixel, h]

/-- At an interior pixel the nine reads succeed and the loops compute the sums
of the 3x3 neighbourhood. -/
theorem neighbourhood_sums_interior (tmp : picture) (i j : Int) (h : interior tmp i j) :
    neighbourhood_sums tmp i j = some (box_sums tmp i j) := by
  obtain ⟨h1, h2, h3, h4⟩ := h
  have b1 : in_bounds tmp (i + -1) (j + -1) := ⟨by omega, by omega, by omega, by omega⟩
  have b2 : in_bounds tmp (i + -1) (j + 0) := ⟨by omega, by omega, by omega, by omega⟩
  have b3 : in_bounds tmp (i + -1) (j + 1) := ⟨by omega, by omega, by omega, by omega⟩
  have b4 : in_bounds tmp (i + 0) (j + -1) := ⟨by omega, by omega, by omega, by omega⟩
  have b5 : in_bounds tmp (i + 0) (j + 0) := ⟨by omega, by omega, by omega, by omega⟩
  have b6 : in_bounds tmp (i + 0) (j + 1) := ⟨by omega, by omega, by omega, by omega⟩
  have b7 : in_bounds tmp (i + 1) (j + -1) := ⟨by omega, by omega, by omega, by omega⟩
  have b8 : in_bounds tmp (i + 1) (j + 0) := ⟨by omega, by omega, by omega, by omega⟩
  have b9 : in_bounds tmp (i + 1) (j + 1) := ⟨by omega, by omega, by omega, by omega⟩
  unfold neighbourhood_sums
  rw [int_range_kernel]
  simp only [List.foldlM_cons, List.foldlM_nil, add_pixel, get_pixel_in_bounds _ _ _ b1,
    get_pixel_in_bounds _ _ _ b2, get_pixel_in_bounds _ _ _ b3, get_pixel_in_bounds _ _ _ b4,
    get_pixel_in_bounds _ _ _ b5, get_pixel_in_bounds _ _ _ b6, get_pixel_in_bounds _ _ _ b7,
    get_pixel_in_bounds _ _ _ b8, get_pixel_in_bounds _ _ _ b9, Option.map_some',
    Option.some_bind, Option.pure_def, Option.bind_eq_bind]
  simp only [Int.add_zero, Nat.zero_add, box_sums, Int.sub_eq_add_neg]

/-- One iteration of the `j` loop at an interior pixel writes the box average
of the private copy to `(i, j)`. -/
theorem blur_pixel_interior (tmp p : picture) (i j : Int) (hw : p.width = tmp.width)
    (hh : p.height = tmp.height) (h : interior tmp i j) :
    blur_pixel tmp i p j
      = some { p with
          img := fun a b => if a = i ∧ b = j then box_average tmp i j else p.img a b } := by
  have hb : in_bounds p i j := by
    obtain ⟨h1, h2, h3, h4⟩ := h
    exact ⟨by omega, by omega, by omega, by omega⟩
  simp [blur_pixel, neighbourhood_sums_interior tmp i j h, set_pixel, hb, box_average]

/-- The `j` loop of `blur_section` over interior pixels of column `i`. -/
theorem foldlM_blur_pixel (tmp : picture) (i : Int) (js : List Int) (p : picture)
    (hw : p.width = tmp.width) (hh : p.height = tmp.height)
    (h : ∀ j ∈ js, interior tmp i j) :
    js.foldlM (blur_pixel tmp i) p
      = some { p with
          img := fun a b => if a = i ∧ b ∈ js then box_average tmp a b else p.img a b } := by
  induction js generalizing p with
  | nil => simp
  | cons j js ih =>
    rw [List.foldlM_cons, blur_pixel_interior tmp p i j hw hh (h j (List.mem_cons_self _ _))]
    rw [Option.bind_eq_bind, Option.some_bind,
      ih { p with img := fun a b => if a = i ∧ b = j then box_average tmp i j else p.img a b }
        hw hh (fun j' hj' => h j' (List.mem_cons_of_mem _ hj'))]
    congr 2
    funext a b
    by_cases ha : a = i <;> by_cases hb : b = j <;> by_cases hm : b ∈ js <;>
      simp [ha, hb, hm]

/-- The two loops of `blur_section` over interior pixels. -/
theorem foldlM_blur_column (tmp : picture) (xs js : List Int) (p : picture)
    (hw : p.width = tmp.width) (hh : p.height = tmp.height)
    (h : ∀ i ∈ xs, ∀ j ∈ js, interior tmp i j) :
    xs.foldlM (fun p i => js.foldlM (blur_pixel tmp i) p) p
      = some { p with
          img := fun a b => if a ∈ xs ∧ b ∈ js then box_average tmp a b else p.img a b } := by
  induction xs generalizing p with
  | nil => simp
  | cons i xs ih =>
    rw [List.foldlM_cons, foldlM_blur_pixel tmp i js p hw hh (h i (List.mem_cons_self _ _))]
    rw [Option.bind_eq_bind, Option.some_bind,
      ih { p with
          img := fun a b => if a = i ∧ b ∈ js then box_average tmp a b else p.img a b }
        hw hh (fun i' hi' => h i' (List.mem_cons_of_mem _ hi'))]
    congr 2
    funext a b
    by_cases ha : a = i <;> by_cases hb : b ∈ js <;> by_cases hm : a ∈ xs <;>
      simp [ha, hb, hm]

/-- A worker whose section lies in the interior of the shared picture succeeds
and replaces exactly the pixels of its section by the box average of the
picture as it was when the worker started. -/
theorem blur_section_interior (w : worker) (pic : picture)
    (h : ∀ i j, in_section w i j → interior pic i j) :
    blur_section w pic = some (blurred_in w pic) := by
  unfold blur_section
  simp only
  rw [foldlM_blur_column
    { img := copy_image pic.img, width := pic.width, height := pic.height } _ _ pic rfl rfl]
  · simp only [blurred_in, mem_int_range, in_section, box_average, box_sums, copy_image,
      and_assoc]
  · intro i hi j hj
    rw [mem_int_range] at hi hj
    exact h i j ⟨hi.1, hi.2, hj.1, hj.2⟩

/-! ## The sections computed by run_exprmt -/

/-- The two conditional assignments of the initialisation loop are overwritten:
every worker gets the base width and the base height. -/
theorem init_worker_eq (w0 : worker) (pic_temp : picture) (x_divides y_divides x y : Int) :
    init_worker w0 pic_temp x_divides y_divides x y
      = { top_left_x := 1 + (pic_temp.width - 2).tdiv x_divides * x,
          top_left_y := 1 + (pic_temp.height - 2).tdiv y_divides * y,
          height := (pic_temp.height - 2).tdiv y_divides,
          width := (pic_temp.width - 2).tdiv x_divides } := by
  unfold init_worker
  split_ifs <;> rfl

theorem tdiv_bounds (n d : Int) (hn : 0 ≤ n) (hd : 1 ≤ d) :
    0 ≤ n.tdiv d ∧ n.tdiv d * d ≤ n := by
  rw [Int.tdiv_eq_ediv hn (by omega)]
  exact ⟨Int.ediv_nonneg hn (by omega), Int.ediv_mul_le _ (by omega)⟩

theorem tdiv_nonpos_of_neg (n d : Int) (hn : n < 0) (hd : 1 ≤ d) : n.tdiv d ≤ 0 := by
  have h : n = -(-n) := by omega
  rw [h, Int.neg_tdiv]
  have := Int.tdiv_nonneg (a := -n) (b := d) (by omega) (by omega)
  omega

theorem one_le_tdiv_iff (n d : Int) (hd : 1 ≤ d) : 1 ≤ n.tdiv d ↔ d ≤ n := by
  by_cases hn : 0 ≤ n
  · rw [Int.tdiv_eq_ediv hn (by omega), Int.le_ediv_iff_mul_le (by omega)]
    omega
  · have := tdiv_nonpos_of_neg n d (by omega) hd
    omega

/-- Along one axis, a strip of base size at grid index `x < d` stays within
`1 .. n`. -/
theorem strip_inside (n d x i : Int) (hd : 1 ≤ d) (hx0 : 0 ≤ x) (hx : x < d)
    (h1 : 1 + n.tdiv d * x ≤ i) (h2 : i < 1 + n.tdiv d * x + n.tdiv d) : 1 ≤ i ∧ i ≤ n := by
  have hs : 0 < n.tdiv d := by omega
  have hn : 0 ≤ n := by
    by_contra hneg
    have := tdiv_nonpos_of_neg n d (by omega) hd
    omega
  obtain ⟨_, hle⟩ := tdiv_bounds n d hn hd
  constructor
  · nlinarith [mul_nonneg hs.le hx0]
  · nlinarith [mul_nonneg hs.le (show (0 : Int) ≤ d - x - 1 by omega)]

/-- Along one axis, the strips of two different grid indices share no point. -/
theorem strips_disjoint (s x x' i : Int) (hne : x ≠ x')
    (h1 : 1 + s * x ≤ i) (h2 : i < 1 + s * x + s)
    (h1' : 1 + s * x' ≤ i) (h2' : i < 1 + s * x' + s) : False := by
  have hs : 0 < s := by omega
  rcases lt_or_gt_of_ne hne with h | h
  · nlinarith [mul_nonneg hs.le (show (0 : Int) ≤ x' - x - 1 by omega)]
  · nlinarith [mul_nonneg hs.le (show (0 : Int) ≤ x - x' - 1 by omega)]

/-- Every section of a grid with at least one column and one row lies in the
interior of the picture. -/
theorem init_worker_inside (w0 : worker) (pic_temp : picture) (x_divides y_divides x y : Int)
    (hxd : 1 ≤ x_divides) (hyd : 1 ≤ y_divides)
    (hx0 : 0 ≤ x) (hx : x < x_divides) (hy0 : 0 ≤ y) (hy : y < y_divides) (i j : Int)
    (h : in_section (init_worker w0 pic_temp x_divides y_divides x y) i j) :
    interior pic_temp i j := by
  rw [init_worker_eq] at h
  obtain ⟨h1, h2, h3, h4⟩ := h
  simp only at h1 h2 h3 h4
  obtain ⟨a1, a2⟩ := strip_inside _ _ _ _ hxd hx0 hx h1 h2
  obtain ⟨a3, a4⟩ := strip_inside _ _ _ _ hyd hy0 hy h3 h4
  exact ⟨a1, a2, a3, a4⟩

/-! ## The threads created by the dispatch loop -/

theorem dispatch_step_cells (MAX_THREADS : Nat) (s : dispatch_state) (x y : Int) :
    (dispatch_step MAX_THREADS s x y).trace.filterMap created_cell
      = s.trace.filterMap created_cell ++ [(x, y)] := by
  unfold dispatch_step
  simp only
  split_ifs <;> simp [List.filterMap_append, created_cell]

theorem dispatch_cells_fold (MAX_THREADS : Nat) (cs : List (Int × Int)) (s : dispatch_state) :
    (cs.foldl (fun s c => dispatch_step MAX_THREADS s c.1 c.2) s).trace.filterMap created_cell
      = s.trace.filterMap created_cell ++ cs := by
  induction cs generalizing s with
  | nil => simp
  | cons c cs ih =>
    rw [List.foldl_cons, ih, dispatch_step_cells]
    simp

theorem drain_fold_trace (l : List Nat) (s : dispatch_state) :
    (l.foldl (fun s i => { s with trace := s.trace ++ [thread_event.join i (s.p_threads i)] })
        s)
      = { s with trace := s.trace ++ l.map fun i => thread_event.join i (s.p_threads i) } := by
  induction l generalizing s with
  | nil => simp
  | cons i l ih =>
    rw [List.foldl_cons, ih]
    simp

theorem drain_trace (MAX_THREADS : Nat) (s : dispatch_state) :
    (drain MAX_THREADS s).trace
      = s.trace ++ (List.range (working_threads MAX_THREADS s)).map
          fun i => thread_event.join i (s.p_threads i) := by
  unfold drain
  rw [drain_fold_trace]

theorem dispatch_loop_flat (MAX_THREADS : Nat) (x_divides y_divides : Int) :
    dispatch_loop MAX_THREADS x_divides y_divides
      = (grid_cells x_divides y_divides).foldl
          (fun s c => dispatch_step MAX_THREADS s c.1 c.2) dispatch_init := by
  unfold dispatch_loop grid_cells
  exact nested_foldl (fun s x y => dispatch_step MAX_THREADS s x y) _ _ _

/-- The dispatch loop creates one thread per grid cell, in the order of the
loops. -/
theorem created_cells_eq (MAX_THREADS : Nat) (x_divides y_divides : Int) :
    (dispatch_trace MAX_THREADS x_divides y_divides).filterMap created_cell
      = grid_cells x_divides y_divides := by
  unfold dispatch_trace
  rw [drain_trace, List.filterMap_append, dispatch_loop_flat, dispatch_cells_fold]
  have h : ∀ l : List Nat, ∀ f : Nat → Option Nat,
      (l.map fun i => thread_event.join i (f i)).filterMap created_cell = [] := by
    intro l f
    induction l with
    | nil => rfl
    | cons a l ih => simp [created_cell, ih]
  rw [h]
  simp [dispatch_init]

theorem issued_workers_eq (MAX_THREADS : Nat) (mem : Int → Int → worker) (pic_temp : picture)
    (x_divides y_divides : Int) :
    issued_workers MAX_THREADS mem pic_temp x_divides y_divides
      = (grid_cells x_divides y_divides).map
          fun c => init_worker (mem c.1 c.2) pic_temp x_divides y_divides c.1 c.2 := by
  unfold issued_workers
  rw [created_cells_eq]

theorem issued_workers_inside (MAX_THREADS : Nat) (mem : Int → Int → worker)
    (pic_temp : picture) (x_divides y_divides : Int)
    (hxd : 1 ≤ x_divides) (hyd : 1 ≤ y_divides) :
    ∀ w ∈ issued_workers MAX_THREADS mem pic_temp x_divides y_divides,
      ∀ i j, in_section w i j → interior pic_temp i j := by
  intro w hw i j hin
  rw [issued_workers_eq, List.mem_map] at hw
  obtain ⟨c, hc, rfl⟩ := hw
  rw [mem_grid_cells] at hc
  exact init_worker_inside _ _ _ _ _ _ hxd hyd hc.1 hc.2.1 hc.2.2.1 hc.2.2.2 i j hin

/-! ## Workers run one after another -/

theorem box_average_uniform (pic : picture) (C : pixel) (i j : Int) (h : interior pic i j)
    (hC : ∀ x y, in_bounds pic x y → pic.img x y = C) : box_average pic i j = C := by
  obtain ⟨h1, h2, h3, h4⟩ := h
  have e1 := hC (i - 1) (j - 1) ⟨by omega, by omega, by omega, by omega⟩
  have e2 := hC (i - 1) j ⟨by omega, by omega, by omega, by omega⟩
  have e3 := hC (i - 1) (j + 1) ⟨by omega, by omega, by omega, by omega⟩
  have e4 := hC i (j - 1) ⟨by omega, by omega, by omega, by omega⟩
  have e5 := hC i j ⟨by omega, by omega, by omega, by omega⟩
  have e6 := hC i (j + 1) ⟨by omega, by omega, by omega, by omega⟩
  have e7 := hC (i + 1) (j - 1) ⟨by omega, by omega, by omega, by omega⟩
  have e8 := hC (i + 1) j ⟨by omega, by omega, by omega, by omega⟩
  have e9 := hC (i + 1) (j + 1) ⟨by omega, by omega, by omega, by omega⟩
  simp only [box_average, box_sums, e1, e2, e3, e4, e5, e6, e7, e8, e9, averaged,
    BLUR_REGION_SIZE, to_channel]
  obtain ⟨r, g, b⟩ := C
  have hr := r.isLt
  have hg := g.isLt
  have hb := b.isLt
  congr 1 <;> apply Fin.ext <;> simp only <;> omega

/-- Workers whose sections lie in the interior all succeed, keep the
dimensions, leave every pixel outside their sections as it was, and keep a
uniform picture uniform. -/
theorem run_workers_inside (ws : List worker) (pic : picture)
    (h : ∀ w ∈ ws, ∀ i j, in_section w i j → interior pic i j) :
    ∃ p, run_workers ws pic = some p ∧ p.width = pic.width ∧ p.height = pic.height ∧
      (∀ a b, (∀ w ∈ ws, ¬ in_section w a b) → p.img a b = pic.img a b) ∧
      (∀ C, (∀ x y, in_bounds pic x y → pic.img x y = C) →
        ∀ x y, in_bounds pic x y → p.img x y = C) := by
  induction ws generalizing pic with
  | nil => exact ⟨pic, rfl, rfl, rfl, fun _ _ _ => rfl, fun _ hC => hC⟩
  | cons w ws ih =>
    have hw := blur_section_interior w pic (h w (List.mem_cons_self _ _))
    obtain ⟨p, hp, hpw, hph, hframe, huni⟩ :=
      ih (blurred_in w pic) (fun w' hw' i j hin => h w' (List.mem_cons_of_mem _ hw') i j hin)
    refine ⟨p, ?_, hpw, hph, ?_, ?_⟩
    · unfold run_workers at hp ⊢
      rw [List.foldlM_cons, hw]
      exact hp
    · intro a b hab
      rw [hframe a b (fun w' hw' => hab w' (List.mem_cons_of_mem _ hw'))]
      simp [blurred_in, hab w (List.mem_cons_self _ _)]
    · intro C hC x y hxy
      refine huni C ?_ x y hxy
      intro x' y' hxy'
      simp only [blurred_in]
      split_ifs with hin
      · exact box_average_uniform pic C x' y' (h w (List.mem_cons_self _ _) x' y' hin) hC
      · exact hC x' y' hxy'

/-! ## C1 : every worker is meant to read pre-blur pixels -/

/-- C1, evaluated on the code.  On the `4 x 3` picture `pic_4x3` with the grid
of 2 columns and 1 row, the workers being run one after another in issue
order, the second worker writes red 1 at pixel `(2, 1)`: its private copy was
taken after the first worker had overwritten `(1, 1)`.  The box average of the
original picture at `(2, 1)` is red 10, and that is what the 1x1 grid writes
there.  So the written pixel is not the average of the pre-blur neighbourhood
and the two grids disagree. -/
theorem C1_second_worker_reads_blurred_pixel :
    (issued_workers 1000 mem0 (copy_picture pic_4x3) 2 1).map (fun w => decide (in_section w 2 1))
        = [false, true] ∧
      (run_exprmt 1000 mem0 pic_4x3 2 1).map (fun p => p.img 2 1) = some (red_pixel 1) ∧
      box_average pic_4x3 2 1 = red_pixel 10 ∧
      (run_exprmt 1000 mem0 pic_4x3 1 1).map (fun p => p.img 2 1) = some (red_pixel 10) := by
  decide

/-! ## C2 : the sections are meant to cover the interior -/

/-- C2, evaluated on the code.  On the `5 x 5` picture `pic_5x5` with the grid
of 2 columns and 2 rows (both within the interior size 3), the interior pixel
`(3, 1)` belongs to no section that `run_exprmt` issues, and after the run it
still holds its original red 90 instead of the box average red 10. -/
theorem C2_interior_pixel_not_covered :
    (1 ≤ (2 : Int) ∧ (2 : Int) ≤ pic_5x5.width - 2 ∧ (2 : Int) ≤ pic_5x5.height - 2) ∧
      interior pic_5x5 3 1 ∧
      (∀ w ∈ issued_workers 1000 mem0 (copy_picture pic_5x5) 2 2, ¬ in_section w 3 1) ∧
      (run_exprmt 1000 mem0 pic_5x5 2 2).map (fun p => p.img 3 1) = some (red_pixel 90) ∧
      box_average pic_5x5 3 1 = red_pixel 10 := by
  decide

/-! ## C3 : the sections are disjoint and lie in the interior -/

/-- C3.  For a picture of width `W` and height `H` and a grid with
`1 ≤ columns ≤ W-2` and `1 ≤ rows ≤ H-2`, the sections `run_exprmt` assigns to
its workers are pairwise disjoint (no pixel lies in the sections of two
different workers), each section lies inside the interior
`[1, W-2] x [1, H-2]`, and no section is empty. -/
theorem C3_sections_disjoint_inside_interior (MAX_THREADS : Nat) (mem : Int → Int → worker)
    (pic : picture) (columns rows : Int)
    (hc : 1 ≤ columns) (hcw : columns ≤ pic.width - 2)
    (hr : 1 ≤ rows) (hrh : rows ≤ pic.height - 2) :
    List.Pairwise (fun w w' => ∀ i j, ¬ (in_section w i j ∧ in_section w' i j))
        (issued_workers MAX_THREADS mem (copy_picture pic) columns rows) ∧
      (∀ w ∈ issued_workers MAX_THREADS mem (copy_picture pic) columns rows,
        ∀ i j, in_section w i j →
          1 ≤ i ∧ i ≤ pic.width - 2 ∧ 1 ≤ j ∧ j ≤ pic.height - 2) ∧
      (∀ w ∈ issued_workers MAX_THREADS mem (copy_picture pic) columns rows,
        in_section w w.top_left_x w.top_left_y) := by
  refine ⟨?_, ?_, ?_⟩
  · rw [issued_workers_eq, List.pairwise_map]
    refine List.Nodup.pairwise_of_forall_ne (nodup_grid_cells _ _) ?_
    rintro ⟨x, y⟩ _ ⟨x', y'⟩ _ hne i j ⟨h, h'⟩
    rw [init_worker_eq] at h h'
    obtain ⟨h1, h2, h3, h4⟩ := h
    obtain ⟨h1', h2', h3', h4'⟩ := h'
    simp only at h1 h2 h3 h4 h1' h2' h3' h4'
    by_cases hx : x = x'
    · have hy : y ≠ y' := fun hy => hne (by rw [hx, hy])
      exact strips_disjoint _ y y' j hy h3 h4 h3' h4'
    · exact strips_disjoint _ x x' i hx h1 h2 h1' h2'
  · intro w hw i j hin
    exact issued_workers_inside MAX_THREADS mem (copy_picture pic) columns rows hc hr w hw i j
      hin
  · intro w hw
    rw [issued_workers_eq, List.mem_map] at hw
    obtain ⟨c, _, rfl⟩ := hw
    rw [init_worker_eq]
    have h1 := (one_le_tdiv_iff (pic.width - 2) columns hc).2 hcw
    have h2 := (one_le_tdiv_iff (pic.height - 2) rows hr).2 hrh
    simp only [in_section, copy_picture]
    omega

/-- Instance of C3 on the `5 x 5` picture with the grid of 2 columns and 2 rows. -/
theorem C3_sections_disjoint_inside_interior_witness :
    (1 ≤ (2 : Int) ∧ (2 : Int) ≤ pic_5x5.width - 2 ∧ (2 : Int) ≤ pic_5x5.height - 2) ∧
      (List.Pairwise (fun w w' => ∀ i j, ¬ (in_section w i j ∧ in_section w' i j))
          (issued_workers 1000 mem0 (copy_picture pic_5x5) 2 2) ∧
        (∀ w ∈ issued_workers 1000 mem0 (copy_picture pic_5x5) 2 2,
          ∀ i j, in_section w i j →
            1 ≤ i ∧ i ≤ pic_5x5.width - 2 ∧ 1 ≤ j ∧ j ≤ pic_5x5.height - 2) ∧
        (∀ w ∈ issued_workers 1000 mem0 (copy_picture pic_5x5) 2 2,
          in_section w w.top_left_x w.top_left_y)) :=
  ⟨by decide,
    C3_sections_disjoint_inside_interior 1000 mem0 pic_5x5 2 2 (by decide) (by decide)
      (by decide) (by decide)⟩

/-! ## C4 : the 1x1 grid computes the 3x3 floor average -/

/-- The single section of the 1x1 grid is the whole interior. -/
theorem issued_workers_one (MAX_THREADS : Nat) (mem : Int → Int → worker) (pic : picture) :
    issued_workers MAX_THREADS mem pic 1 1
      = [{ top_left_x := 1, top_left_y := 1, height := pic.height - 2,
           width := pic.width - 2 }] := by
  rw [issued_workers_eq]
  have h : grid_cells 1 1 = [(0, 0)] := by decide
  rw [h, List.map_cons, List.map_nil, init_worker_eq]
  simp [Int.tdiv_one]

theorem to_channel_val (v : Nat) (h : v < 256) : (to_channel v).val = v := by
  simp [to_channel, Nat.mod_eq_of_lt h]

/-- C4.  For a picture with width ≥ 3 and height ≥ 3 blurred with the 1x1 grid,
the run succeeds and every interior pixel `(i, j)` of the result has, in each
of the red, green and blue channels, the value `S / 9` (floor division), where
`S` is the sum of that channel over the nine pixels `(i+n, j+m)`,
`n, m ∈ {-1, 0, 1}`, of the original picture. -/
theorem C4_single_section_floor_average (MAX_THREADS : Nat) (mem : Int → Int → worker)
    (pic : picture) (_hw : 3 ≤ pic.width) (_hh : 3 ≤ pic.height) :
    ∃ p, run_exprmt MAX_THREADS mem pic 1 1 = some p ∧
      ∀ i j, interior pic i j →
        ((p.img i j).red : Nat)
            = (∑ n ∈ ({-1, 0, 1} : Finset Int), ∑ m ∈ ({-1, 0, 1} : Finset Int),
                ((pic.img (i + n) (j + m)).red : Nat)) / 9 ∧
          ((p.img i j).green : Nat)
            = (∑ n ∈ ({-1, 0, 1} : Finset Int), ∑ m ∈ ({-1, 0, 1} : Finset Int),
                ((pic.img (i + n) (j + m)).green : Nat)) / 9 ∧
          ((p.img i j).blue : Nat)
            = (∑ n ∈ ({-1, 0, 1} : Finset Int), ∑ m ∈ ({-1, 0, 1} : Finset Int),
                ((pic.img (i + n) (j + m)).blue : Nat)) / 9 := by
  have hin : ∀ i j,
      in_section (worker.mk 1 1 (pic.height - 2) (pic.width - 2)) i j ↔ interior pic i j := by
    intro i j
    simp only [in_section, interior]
    omega
  refine ⟨blurred_in (worker.mk 1 1 (pic.height - 2) (pic.width - 2)) (copy_picture pic),
    ?_, ?_⟩
  · unfold run_exprmt
    simp only
    rw [issued_workers_one]
    unfold run_workers
    rw [List.foldlM_cons, blur_section_interior]
    · rfl
    · intro i j h
      exact (hin i j).1 h
  · intro i j hij
    have e : ∀ f : Int → Int → Nat,
        ∑ n ∈ ({-1, 0, 1} : Finset Int), ∑ m ∈ ({-1, 0, 1} : Finset Int), f (i + n) (j + m)
          = f (i-1) (j-1) + f (i-1) j + f (i-1) (j+1) + f i (j-1) + f i j + f i (j+1)
            + f (i+1) (j-1) + f (i+1) j + f (i+1) (j+1) := by
      intro f
      simp [Finset.sum_insert, Int.sub_eq_add_neg]
      ring
    rw [e fun a b => ((pic.img a b).red : Nat), e fun a b => ((pic.img a b).green : Nat),
      e fun a b => ((pic.img a b).blue : Nat)]
    simp only [blurred_in, if_pos ((hin i j).2 hij), box_average, averaged, box_sums,
      copy_picture, copy_image, BLUR_REGION_SIZE]
    have b := fun a b => (pic.img a b).red.isLt
    have g := fun a b => (pic.img a b).green.isLt
    have u := fun a b => (pic.img a b).blue.isLt
    refine ⟨to_channel_val _ ?_, to_channel_val _ ?_, to_channel_val _ ?_⟩
    · have := b (i-1) (j-1); have := b (i-1) j; have := b (i-1) (j+1); have := b i (j-1)
      have := b i j; have := b i (j+1); have := b (i+1) (j-1); have := b (i+1) j
      have := b (i+1) (j+1)
      omega
    · have := g (i-1) (j-1); have := g (i-1) j; have := g (i-1) (j+1); have := g i (j-1)
      have := g i j; have := g i (j+1); have := g (i+1) (j-1); have := g (i+1) j
      have := g (i+1) (j+1)
      omega
    · have := u (i-1) (j-1); have := u (i-1) j; have := u (i-1) (j+1); have := u i (j-1)
      have := u i j; have := u i (j+1); have := u (i+1) (j-1); have := u (i+1) j
      have := u (i+1) (j+1)
      omega

/-- Instance of C4 on the `4 x 3` picture `pic_4x3`. -/
theorem C4_single_section_floor_average_witness :
    (3 ≤ pic_4x3.width ∧ 3 ≤ pic_4x3.height) ∧
      ∃ p, run_exprmt 1000 mem0 pic_4x3 1 1 = some p ∧
        ∀ i j, interior pic_4x3 i j →
          ((p.img i j).red : Nat)
              = (∑ n ∈ ({-1, 0, 1} : Finset Int), ∑ m ∈ ({-1, 0, 1} : Finset Int),
                  ((pic_4x3.img (i + n) (j + m)).red : Nat)) / 9 ∧
            ((p.img i j).green : Nat)
              = (∑ n ∈ ({-1, 0, 1} : Finset Int), ∑ m ∈ ({-1, 0, 1} : Finset Int),
                  ((pic_4x3.img (i + n) (j + m)).green : Nat)) / 9 ∧
            ((p.img i j).blue : Nat)
              = (∑ n ∈ ({-1, 0, 1} : Finset Int), ∑ m ∈ ({-1, 0, 1} : Finset Int),
                  ((pic_4x3.img (i + n) (j + m)).blue : Nat)) / 9 :=
  ⟨by decide, C4_single_section_floor_average 1000 mem0 pic_4x3 (by decide) (by decide)⟩

/-! ## C5 : the outermost ring is never written -/

/-- C5.  For every picture and every grid with columns ≥ 1 and rows ≥ 1, in
whatever order the issued workers are run, the run succeeds, the dimensions
are kept, and every pixel of the outermost ring (`x = 0`, `x = width-1`,
`y = 0` or `y = height-1`) is the same pixel after the blur as before it. -/
theorem C5_border_pixels_unchanged (MAX_THREADS : Nat) (mem : Int → Int → worker)
    (pic : picture) (columns rows : Int) (hc : 1 ≤ columns) (hr : 1 ≤ rows)
    (order : List worker)
    (horder : order.Perm (issued_workers MAX_THREADS mem (copy_picture pic) columns rows)) :
    ∃ p, run_workers order (copy_picture pic) = some p ∧
      p.width = pic.width ∧ p.height = pic.height ∧
      ∀ x y, (x = 0 ∨ x = pic.width - 1 ∨ y = 0 ∨ y = pic.height - 1) →
        p.img x y = pic.img x y := by
  have hin : ∀ w ∈ order, ∀ i j, in_section w i j → interior (copy_picture pic) i j :=
    fun w hw => issued_workers_inside MAX_THREADS mem (copy_picture pic) columns rows hc hr w
      (horder.mem_iff.1 hw)
  obtain ⟨p, hp, hpw, hph, hframe, _⟩ := run_workers_inside order (copy_picture pic) hin
  refine ⟨p, hp, hpw, hph, ?_⟩
  intro x y hxy
  rw [hframe x y]
  · rfl
  · intro w hw hsec
    obtain ⟨h1, h2, h3, h4⟩ := hin w hw x y hsec
    simp only [copy_picture] at h2 h4
    omega

/-- Instance of C5 on `pic_4x3` with 2 columns and 1 row, workers in issue order. -/
theorem C5_border_pixels_unchanged_witness :
    (1 ≤ (2 : Int) ∧ 1 ≤ (1 : Int)) ∧
      ∃ p, run_workers (issued_workers 1000 mem0 (copy_picture pic_4x3) 2 1)
          (copy_picture pic_4x3) = some p ∧
        p.width = pic_4x3.width ∧ p.height = pic_4x3.height ∧
        ∀ x y, (x = 0 ∨ x = pic_4x3.width - 1 ∨ y = 0 ∨ y = pic_4x3.height - 1) →
          p.img x y = pic_4x3.img x y :=
  ⟨by decide,
    C5_border_pixels_unchanged 1000 mem0 pic_4x3 2 1 (by decide) (by decide) _
      (List.Perm.refl _)⟩

/-! ## C6 : the last column and the last row are meant to absorb the remainder -/

/-- C6, evaluated on the code.  On a `5 x 5` picture (interior `3 x 3`) with
the grid of 2 columns and 2 rows the base width and height are `3 / 2 = 1`, so
the last column should be `3 - 1*(2-1) = 2` wide and the last row 2 high.  All
four workers that `run_exprmt` issues, the two of the last column and the two
of the last row included, have width 1 and height 1. -/
theorem C6_last_column_and_row_keep_base_size :
    issued_workers 1000 mem0 (copy_picture pic_5x5) 2 2
        = [{ top_left_x := 1, top_left_y := 1, height := 1, width := 1 },
           { top_left_x := 1, top_left_y := 2, height := 1, width := 1 },
           { top_left_x := 2, top_left_y := 1, height := 1, width := 1 },
           { top_left_x := 2, top_left_y := 2, height := 1, width := 1 }] ∧
      (pic_5x5.width - 2) - (pic_5x5.width - 2).tdiv 2 * (2 - 1) = 2 ∧
      (pic_5x5.height - 2) - (pic_5x5.height - 2).tdiv 2 * (2 - 1) = 2 := by
  decide

/-! ## C7 : no grid is rejected -/

/-- C7 fails on the code.  On the `3 x 3` picture `pic_3x3` (interior `1 x 1`)
the grid of 2 columns and 1 row has more columns than the interior is wide,
yet `run_exprmt` rejects nothing: the dispatch loop creates two threads, for
the cells `(0, 0)` and `(1, 0)`, whose sections have width 0, and the run
completes. -/
theorem C7_too_fine_grid_is_not_rejected :
    (2 : Int) > pic_3x3.width - 2 ∧
      (dispatch_trace 1000 2 1).filterMap created_cell = [(0, 0), (1, 0)] ∧
      (issued_workers 1000 mem0 (copy_picture pic_3x3) 2 1).map (fun w => w.width) = [0, 0] ∧
      (run_exprmt 1000 mem0 pic_3x3 2 1).isSome = true := by
  decide

/-- A grid with no column or no row has no cell: the loops over the grid never
reach their body. -/
theorem grid_cells_empty (x_divides y_divides : Int) (h : x_divides < 1 ∨ y_divides < 1) :
    grid_cells x_divides y_divides = [] := by
  apply List.eq_nil_iff_forall_not_mem.2
  intro c hc
  rw [mem_grid_cells] at hc
  omega

/-- With no cell the dispatch loop and the final loop call nothing. -/
theorem dispatch_trace_empty (MAX_THREADS : Nat) (x_divides y_divides : Int)
    (h : x_divides < 1 ∨ y_divides < 1) : dispatch_trace MAX_THREADS x_divides y_divides = [] := by
  unfold dispatch_trace
  rw [drain_trace, dispatch_loop_flat, grid_cells_empty _ _ h]
  have e : working_threads MAX_THREADS dispatch_init = 0 := by
    unfold working_threads
    split_ifs with hlt
    · exact absurd hlt (Nat.not_lt_zero _)
    · rfl
  simp only [List.foldl_nil, e, List.range_zero, List.map_nil, List.append_nil]
  rfl

/-- C7 as amended.  `run_exprmt` validates no grid and has no `InvalidGrid`
error.  When columns < 1 or rows < 1 it makes no call to the thread library, so
no worker is launched, and no pixel is changed.  For every grid with
columns ≥ 1 and rows ≥ 1, also one with `columns > interior_width` or
`rows > interior_height`, nothing is rejected: the dispatch loop creates one
thread per grid cell (`columns * rows` of them) and the run completes.  Every
section has width ≥ 1 and height ≥ 1 exactly when `columns ≤ interior_width`
and `rows ≤ interior_height`. -/
theorem C7_amended_no_grid_validation (MAX_THREADS : Nat) (mem : Int → Int → worker)
    (pic : picture) (columns rows : Int) :
    ((columns < 1 ∨ rows < 1) →
        dispatch_trace MAX_THREADS columns rows = [] ∧
          issued_workers MAX_THREADS mem (copy_picture pic) columns rows = [] ∧
          ∀ p, run_exprmt MAX_THREADS mem pic columns rows = some p →
            ∀ x y, p.img x y = pic.img x y) ∧
      (1 ≤ columns → 1 ≤ rows →
        ((dispatch_trace MAX_THREADS columns rows).filterMap created_cell).length
            = columns.toNat * rows.toNat ∧
          (∃ p, run_exprmt MAX_THREADS mem pic columns rows = some p) ∧
          ((∀ w ∈ issued_workers MAX_THREADS mem (copy_picture pic) columns rows,
              1 ≤ w.width ∧ 1 ≤ w.height)
            ↔ (columns ≤ pic.width - 2 ∧ rows ≤ pic.height - 2))) := by
  refine ⟨?_, ?_⟩
  · intro hlt
    have hnil : issued_workers MAX_THREADS mem (copy_picture pic) columns rows = [] := by
      rw [issued_workers_eq, grid_cells_empty _ _ hlt]
      rfl
    refine ⟨dispatch_trace_empty MAX_THREADS columns rows hlt, hnil, ?_⟩
    intro p hp x y
    unfold run_exprmt at hp
    simp only [hnil] at hp
    have e : copy_picture pic = p := Option.some.inj hp
    rw [← e]
    rfl
  · intro hc hr
    have hsize : ∀ w ∈ issued_workers MAX_THREADS mem (copy_picture pic) columns rows,
        w.width = (pic.width - 2).tdiv columns ∧ w.height = (pic.height - 2).tdiv rows := by
      intro w hw
      rw [issued_workers_eq, List.mem_map] at hw
      obtain ⟨c, _, rfl⟩ := hw
      rw [init_worker_eq]
      exact ⟨rfl, rfl⟩
    have h00 : init_worker (mem 0 0) (copy_picture pic) columns rows 0 0
        ∈ issued_workers MAX_THREADS mem (copy_picture pic) columns rows := by
      rw [issued_workers_eq, List.mem_map]
      exact ⟨(0, 0), (mem_grid_cells _ _ _).2 ⟨le_refl _, by omega, le_refl _, by omega⟩, rfl⟩
    refine ⟨?_, ?_, ?_⟩
    · rw [created_cells_eq, length_grid_cells]
    · obtain ⟨p, hp, _⟩ := run_workers_inside _ (copy_picture pic)
        (issued_workers_inside MAX_THREADS mem (copy_picture pic) columns rows hc hr)
      exact ⟨p, hp⟩
    · rw [← one_le_tdiv_iff (pic.width - 2) columns hc,
        ← one_le_tdiv_iff (pic.height - 2) rows hr]
      constructor
      · intro h
        have h1 := h _ h00
        have h2 := hsize _ h00
        omega
      · intro h w hw
        have h2 := hsize w hw
        omega

/-- Instances of the amended C7 on `pic_3x3`: the grid of -1 columns and 1 row,
and the grid of 2 columns and 1 row. -/
theorem C7_amended_no_grid_validation_witness :
    (((-1 : Int) < 1 ∨ (1 : Int) < 1) ∧
        dispatch_trace 1000 (-1) 1 = [] ∧
        issued_workers 1000 mem0 (copy_picture pic_3x3) (-1) 1 = [] ∧
        ∀ p, run_exprmt 1000 mem0 pic_3x3 (-1) 1 = some p →
          ∀ x y, p.img x y = pic_3x3.img x y) ∧
      ((1 ≤ (2 : Int) ∧ 1 ≤ (1 : Int)) ∧
        ((dispatch_trace 1000 2 1).filterMap created_cell).length
          = (2 : Int).toNat * (1 : Int).toNat ∧
        (∃ p, run_exprmt 1000 mem0 pic_3x3 2 1 = some p) ∧
        ((∀ w ∈ issued_workers 1000 mem0 (copy_picture pic_3x3) 2 1,
            1 ≤ w.width ∧ 1 ≤ w.height)
          ↔ ((2 : Int) ≤ pic_3x3.width - 2 ∧ (1 : Int) ≤ pic_3x3.height - 2))) :=
  ⟨⟨by decide, (C7_amended_no_grid_validation 1000 mem0 pic_3x3 (-1) 1).1 (by decide)⟩,
    ⟨by decide,
      (C7_amended_no_grid_validation 1000 mem0 pic_3x3 2 1).2 (by decide) (by decide)⟩⟩

/-! ## C8 : a uniform picture stays uniform -/

/-- C8.  For a picture in which all pixels have the same colour `C`, every grid
with columns ≥ 1 and rows ≥ 1, and whatever the order in which the issued
workers are run, the run succeeds, the dimensions are kept and every pixel of
the picture after the blur still has colour `C`. -/
theorem C8_uniform_picture_unchanged (MAX_THREADS : Nat) (mem : Int → Int → worker)
    (pic : picture) (C : pixel) (columns rows : Int) (hc : 1 ≤ columns) (hr : 1 ≤ rows)
    (hC : ∀ x y, in_bounds pic x y → pic.img x y = C)
    (order : List worker)
    (horder : order.Perm (issued_workers MAX_THREADS mem (copy_picture pic) columns rows)) :
    ∃ p, run_workers order (copy_picture pic) = some p ∧
      p.width = pic.width ∧ p.height = pic.height ∧
      ∀ x y, in_bounds pic x y → p.img x y = C := by
  have hin : ∀ w ∈ order, ∀ i j, in_section w i j → interior (copy_picture pic) i j :=
    fun w hw => issued_workers_inside MAX_THREADS mem (copy_picture pic) columns rows hc hr w
      (horder.mem_iff.1 hw)
  obtain ⟨p, hp, hpw, hph, _, huni⟩ := run_workers_inside order (copy_picture pic) hin
  exact ⟨p, hp, hpw, hph, fun x y hxy => huni C hC x y hxy⟩

/-- Instance of C8 on the uniform picture with 2 columns and 1 row, the workers
being run in the reverse of the issue order. -/
theorem C8_uniform_picture_unchanged_witness :
    (1 ≤ (2 : Int) ∧ 1 ≤ (1 : Int) ∧
        ∀ x y, in_bounds pic_uniform x y → pic_uniform.img x y = ⟨7, 8, 9⟩) ∧
      ∃ p, run_workers (issued_workers 1000 mem0 (copy_picture pic_uniform) 2 1).reverse
          (copy_picture pic_uniform) = some p ∧
        p.width = pic_uniform.width ∧ p.height = pic_uniform.height ∧
        ∀ x y, in_bounds pic_uniform x y → p.img x y = ⟨7, 8, 9⟩ :=
  ⟨⟨by decide, by decide, fun _ _ _ => rfl⟩,
    C8_uniform_picture_unchanged 1000 mem0 pic_uniform ⟨7, 8, 9⟩ 2 1 (by decide) (by decide)
      (fun _ _ _ => rfl) _ (List.reverse_perm _)⟩

/-! ## The ring of thread handles -/

theorem dispatch_step_setup (MAX_THREADS : Nat) (s : dispatch_state) (x y : Int) :
    (dispatch_step MAX_THREADS s x y).setup_threads = s.setup_threads + 1 := by
  unfold dispatch_step
  simp only
  split_ifs <;> rfl

theorem dispatch_step_counter (MAX_THREADS : Nat) (s : dispatch_state) (x y : Int) :
    (dispatch_step MAX_THREADS s x y).counter
      = if s.counter + 1 ≥ MAX_THREADS then s.counter + 1 - MAX_THREADS else s.counter + 1 := by
  unfold dispatch_step
  simp only
  split_ifs <;> rfl

theorem dispatch_step_p_threads (MAX_THREADS : Nat) (s : dispatch_state) (x y : Int) :
    (dispatch_step MAX_THREADS s x y).p_threads
      = Function.update s.p_threads s.counter (some s.setup_threads) := by
  unfold dispatch_step
  simp only
  split_ifs <;> rfl

theorem dispatch_step_trace (MAX_THREADS : Nat) (s : dispatch_state) (x y : Int) :
    (dispatch_step MAX_THREADS s x y).trace
      = s.trace ++ ((if s.setup_threads ≥ MAX_THREADS then
            [thread_event.join s.counter (s.p_threads s.counter)] else [])
          ++ [thread_event.create s.counter s.setup_threads x y]) := by
  unfold dispatch_step
  simp only
  split_ifs <;> simp

theorem succ_mod_ring (M k : Nat) (hM : 1 ≤ M) :
    (k + 1) % M = if k % M + 1 ≥ M then k % M + 1 - M else k % M + 1 := by
  have hr : k % M < M := Nat.mod_lt _ (by omega)
  rcases Nat.lt_or_ge 1 M with h1 | h1
  · rw [Nat.add_mod, Nat.mod_eq_of_lt h1]
    split_ifs with h
    · have e : k % M + 1 = M := by omega
      rw [e, Nat.mod_self]
      omega
    · exact Nat.mod_eq_of_lt (by omega)
  · have e : M = 1 := by omega
    subst e
    simp [Nat.mod_one]

theorem eq_of_mod_eq_of_near (M t k : Nat) (h1 : t ≤ k) (h2 : k < t + M)
    (h3 : t % M = k % M) : t = k := by
  have h4 : (k - t) % M = 0 := Nat.sub_mod_eq_zero_of_mod_eq h3.symm
  have h5 : k - t < M := by omega
  rw [Nat.mod_eq_of_lt h5] at h4
  omega

theorem live_threads_create (tr : List thread_event) (slot tid : Nat) (x y : Int) :
    live_threads (tr ++ [thread_event.create slot tid x y]) = live_threads tr + 1 := by
  simp only [live_threads, List.filterMap_append, List.filterMap_cons, List.filterMap_nil,
    created_slot, joined_slot, List.length_append, List.length_cons, List.length_nil]
  push_cast
  ring

theorem live_threads_join (tr : List thread_event) (slot : Nat) (h : Option Nat) :
    live_threads (tr ++ [thread_event.join slot h]) = live_threads tr - 1 := by
  simp only [live_threads, List.filterMap_append, List.filterMap_cons, List.filterMap_nil,
    created_slot, joined_slot, List.length_append, List.length_cons, List.length_nil]
  push_cast
  ring

theorem ring_inv_init (MAX_THREADS : Nat) : ring_inv MAX_THREADS 0 dispatch_init where
  setup := rfl
  counter := by simp [dispatch_init]
  slots := by simp [dispatch_init]
  filled := by intro i _ h; omega
  creates := by simp [dispatch_init]
  joins := by simp [dispatch_init]
  live := by
    intro pre hpre
    have e : pre = [] := by simpa [dispatch_init] using hpre
    subst e
    simp [live_threads]
  reuse := by simp [dispatch_init]
  rejoin := by simp [dispatch_init]

/-- One iteration of the dispatch loop preserves the ring invariant. -/
theorem ring_inv_step (MAX_THREADS k : Nat) (hM : 1 ≤ MAX_THREADS) (s : dispatch_state)
    (x y : Int) (h : ring_inv MAX_THREADS k s) :
    ring_inv MAX_THREADS (k + 1) (dispatch_step MAX_THREADS s x y) := by
  have hsetup := h.setup
  have hcounter := h.counter
  have hold : MAX_THREADS ≤ k → s.p_threads (k % MAX_THREADS) = some (k - MAX_THREADS) := by
    intro hk
    rw [h.slots]
    exact ⟨by omega, by omega, (Nat.mod_eq_sub_mod hk).symm⟩
  have htrace : (dispatch_step MAX_THREADS s x y).trace
      = s.trace ++ ((if MAX_THREADS ≤ k then
            [thread_event.join (k % MAX_THREADS) (some (k - MAX_THREADS))] else [])
          ++ [thread_event.create (k % MAX_THREADS) k x y]) := by
    rw [dispatch_step_trace, hsetup, hcounter]
    by_cases hk : MAX_THREADS ≤ k
    · simp only [ge_iff_le, hk, if_true, hold hk]
    · simp only [ge_iff_le, hk, if_false]
  have hlive : live_threads s.trace = (k : Int) - ((k - MAX_THREADS : Nat) : Int) := by
    simp only [live_threads, h.creates, h.joins, List.length_map, List.length_range]
  refine ⟨?_, ?_, ?_, ?_, ?_, ?_, ?_, ?_, ?_⟩
  · rw [dispatch_step_setup, hsetup]
  · rw [dispatch_step_counter, hcounter, succ_mod_ring MAX_THREADS k hM]
  · intro i t
    rw [dispatch_step_p_threads, hsetup, hcounter]
    by_cases hi : i = k % MAX_THREADS
    · subst hi
      rw [Function.update_same]
      constructor
      · intro e
        have e' : k = t := Option.some.inj e
        subst e'
        exact ⟨by omega, by omega, rfl⟩
      · rintro ⟨h1, h2, h3⟩
        rw [eq_of_mod_eq_of_near MAX_THREADS t k (by omega) (by omega) h3]
    · rw [Function.update_noteq hi, h.slots]
      constructor
      · rintro ⟨h1, h2, h3⟩
        refine ⟨by omega, ?_, h3⟩
        by_contra hc
        have e : k = t + MAX_THREADS := by omega
        apply hi
        rw [e, Nat.add_mod_right, h3]
      · rintro ⟨h1, h2, h3⟩
        have hne : t ≠ k := fun e => hi (by rw [← h3, e])
        exact ⟨by omega, by omega, h3⟩
  · intro i hiM hik
    rw [dispatch_step_p_threads, hsetup, hcounter]
    by_cases hi : i = k % MAX_THREADS
    · subst hi
      exact ⟨k, by rw [Function.update_same]⟩
    · rw [Function.update_noteq hi]
      apply h.filled i hiM
      by_contra hc
      have e : i = k := by omega
      apply hi
      rw [e, Nat.mod_eq_of_lt (by omega)]
  · rw [htrace, List.filterMap_append, h.creates, List.range_succ, List.map_append]
    by_cases hk : MAX_THREADS ≤ k <;> simp [hk, created_slot]
  · rw [htrace, List.filterMap_append, h.joins]
    by_cases hk : MAX_THREADS ≤ k
    · have e : k + 1 - MAX_THREADS = (k - MAX_THREADS) + 1 := by omega
      rw [e, List.range_succ, List.map_append]
      simp [hk, joined_slot, (Nat.mod_eq_sub_mod hk).symm]
    · have e : k + 1 - MAX_THREADS = 0 := by omega
      have e' : k - MAX_THREADS = 0 := by omega
      simp [hk, joined_slot, e, e']
  · intro pre hpre
    rw [htrace] at hpre
    by_cases hk : MAX_THREADS ≤ k
    · simp only [hk, if_true, List.singleton_append] at hpre
      have e : s.trace ++ [thread_event.join (k % MAX_THREADS) (some (k - MAX_THREADS)),
            thread_event.create (k % MAX_THREADS) k x y]
          = (s.trace ++ [thread_event.join (k % MAX_THREADS) (some (k - MAX_THREADS))])
            ++ [thread_event.create (k % MAX_THREADS) k x y] := by simp
      rw [e, List.prefix_concat_iff] at hpre
      rcases hpre with hp | hp
      · rw [hp, live_threads_create, live_threads_join, hlive]
        omega
      · rw [List.prefix_concat_iff] at hp
        rcases hp with hp | hp
        · rw [hp, live_threads_join, hlive]
          omega
        · exact h.live pre hp
    · simp only [hk, if_false, List.nil_append] at hpre
      rw [List.prefix_concat_iff] at hpre
      rcases hpre with hp | hp
      · rw [hp, live_threads_create, hlive]
        omega
      · exact h.live pre hp
  · intro slot tid x' y' hmem htid
    rw [htrace] at hmem ⊢
    rw [List.mem_append] at hmem
    rcases hmem with hmem | hmem
    · obtain ⟨pre, post, e⟩ := h.reuse slot tid x' y' hmem htid
      refine ⟨pre, post ++ ((if MAX_THREADS ≤ k then
            [thread_event.join (k % MAX_THREADS) (some (k - MAX_THREADS))] else [])
          ++ [thread_event.create (k % MAX_THREADS) k x y]), ?_⟩
      rw [e]
      simp
    · by_cases hk : MAX_THREADS ≤ k
      · simp only [hk, if_true, List.singleton_append, List.mem_cons, List.mem_singleton,
          reduceCtorEq, false_or, thread_event.create.injEq, List.not_mem_nil, or_false]
          at hmem
        obtain ⟨rfl, rfl, rfl, rfl⟩ := hmem
        exact ⟨s.trace, [], by simp [hk]⟩
      · simp only [hk, if_false, List.nil_append, List.mem_singleton,
          thread_event.create.injEq] at hmem
        obtain ⟨rfl, rfl, rfl, rfl⟩ := hmem
        exact absurd htid hk
  · intro slot hd hmem
    rw [htrace] at hmem ⊢
    rw [List.mem_append] at hmem
    rcases hmem with hmem | hmem
    · obtain ⟨pre, post, t, x', y', e1, e2⟩ := h.rejoin slot hd hmem
      refine ⟨pre, post ++ ((if MAX_THREADS ≤ k then
            [thread_event.join (k % MAX_THREADS) (some (k - MAX_THREADS))] else [])
          ++ [thread_event.create (k % MAX_THREADS) k x y]), t, x', y', e1, ?_⟩
      rw [e2]
      simp
    · by_cases hk : MAX_THREADS ≤ k
      · simp only [hk, if_true, List.singleton_append, List.mem_cons, List.mem_singleton,
          reduceCtorEq, or_false, thread_event.join.injEq, List.not_mem_nil] at hmem
        obtain ⟨rfl, rfl⟩ := hmem
        refine ⟨s.trace, [], k - MAX_THREADS, x, y, rfl, ?_⟩
        have e : k - MAX_THREADS + MAX_THREADS = k := by omega
        simp [hk, e]
      · simp only [hk, if_false, List.nil_append, List.mem_singleton, reduceCtorEq] at hmem

theorem dispatch_cells_snoc (MAX_THREADS : Nat) (cs : List (Int × Int)) (c : Int × Int) :
    dispatch_cells MAX_THREADS (cs ++ [c])
      = dispatch_step MAX_THREADS (dispatch_cells MAX_THREADS cs) c.1 c.2 := by
  simp [dispatch_cells, List.foldl_append]

/-- The ring invariant holds after the dispatch loop has run over any list of
cells. -/
theorem ring_inv_cells (MAX_THREADS : Nat) (hM : 1 ≤ MAX_THREADS) (cs : List (Int × Int)) :
    ring_inv MAX_THREADS cs.length (dispatch_cells MAX_THREADS cs) := by
  refine List.reverseRecOn cs ?_ ?_
  · exact ring_inv_init MAX_THREADS
  · intro l c ih
    rw [dispatch_cells_snoc, List.length_append]
    exact ring_inv_step MAX_THREADS l.length hM _ c.1 c.2 ih

theorem ring_inv_loop (MAX_THREADS : Nat) (hM : 1 ≤ MAX_THREADS) (x_divides y_divides : Int) :
    ring_inv MAX_THREADS (x_divides.toNat * y_divides.toNat)
      (dispatch_loop MAX_THREADS x_divides y_divides) := by
  rw [dispatch_loop_flat, ← length_grid_cells]
  exact ring_inv_cells MAX_THREADS hM _

theorem join_calls_created (l : List Nat) (f : Nat → Option Nat) :
    (l.map fun i => thread_event.join i (f i)).filterMap created_slot = [] := by
  induction l with
  | nil => rfl
  | cons a l ih => simp [created_slot, ih]

theorem join_calls_joined (l : List Nat) (f : Nat → Option Nat) :
    (l.map fun i => thread_event.join i (f i)).filterMap joined_slot
      = l.map fun i => (i, f i) := by
  induction l with
  | nil => rfl
  | cons a l ih => simp [joined_slot, ih]

theorem working_threads_eq (MAX_THREADS n : Nat) (s : dispatch_state)
    (h : s.setup_threads = n) : working_threads MAX_THREADS s = min MAX_THREADS n := by
  unfold working_threads
  rw [h]
  split_ifs <;> omega

/-- The whole trace is the trace of the loop followed by the joins of the final
loop over the first `min MAX_THREADS n` slots. -/
theorem dispatch_trace_eq (MAX_THREADS : Nat) (hM : 1 ≤ MAX_THREADS)
    (x_divides y_divides : Int) :
    dispatch_trace MAX_THREADS x_divides y_divides
      = (dispatch_loop MAX_THREADS x_divides y_divides).trace
        ++ (List.range (min MAX_THREADS (x_divides.toNat * y_divides.toNat))).map
            fun i => thread_event.join i
              ((dispatch_loop MAX_THREADS x_divides y_divides).p_threads i) := by
  unfold dispatch_trace
  rw [drain_trace, working_threads_eq _ _ _ (ring_inv_loop MAX_THREADS hM _ _).setup]

/-- The handles joined over the whole run are the threads `0 .. n-1`, each
once. -/
theorem joined_handles_perm (MAX_THREADS n : Nat) (hM : 1 ≤ MAX_THREADS) (s : dispatch_state)
    (h : ring_inv MAX_THREADS n s) :
    ((List.range (n - MAX_THREADS)).map some
        ++ (List.range (min MAX_THREADS n)).map fun i => s.p_threads i).Perm
      ((List.range n).map some) := by
  have hinj : Function.Injective (some : Nat → Option Nat) := fun a b e => Option.some.inj e
  rw [List.perm_ext_iff_of_nodup]
  · intro a
    simp only [List.mem_append, List.mem_map, List.mem_range]
    constructor
    · rintro (⟨t, ht, rfl⟩ | ⟨i, hi, rfl⟩)
      · exact ⟨t, by omega, rfl⟩
      · obtain ⟨t, ht⟩ := h.filled i (by omega) (by omega)
        exact ⟨t, ((h.slots i t).1 ht).1, ht.symm⟩
    · rintro ⟨t, ht, rfl⟩
      by_cases hlt : t < n - MAX_THREADS
      · exact Or.inl ⟨t, hlt, rfl⟩
      · refine Or.inr ⟨t % MAX_THREADS, ?_, ?_⟩
        · have h1 : t % MAX_THREADS < MAX_THREADS := Nat.mod_lt _ (by omega)
          have h2 : t % MAX_THREADS ≤ t := Nat.mod_le _ _
          omega
        · exact (h.slots _ t).2 ⟨ht, by omega, rfl⟩
  · rw [List.nodup_append]
    refine ⟨List.Nodup.map hinj (List.nodup_range _), ?_, ?_⟩
    · refine List.Nodup.map_on ?_ (List.nodup_range _)
      intro i hi j hj e
      rw [List.mem_range] at hi hj
      obtain ⟨t, ht⟩ := h.filled i (by omega) (by omega)
      have hj' : s.p_threads j = some t := by rw [← e, ht]
      rw [← ((h.slots i t).1 ht).2.2, ← ((h.slots j t).1 hj').2.2]
    · intro a h1 h2
      simp only [List.mem_map, List.mem_range] at h1 h2
      obtain ⟨t, ht, rfl⟩ := h1
      obtain ⟨i, _, hi⟩ := h2
      have := ((h.slots i t).1 hi).2.1
      omega
  · exact List.Nodup.map hinj (List.nodup_range _)

/-! ## C9 : one thread per section, each joined once -/

/-- C9.  For every grid with columns ≥ 1 and rows ≥ 1 and every thread cap
`MAX_THREADS ≥ 1`: the cells for which the dispatch loop of `run_exprmt`
creates a thread are the grid cells in the order of the loops, no cell twice,
every cell present, `columns * rows` in total, and the threads created are the
threads `0 .. columns*rows - 1`; the handles joined during the whole run are
exactly these threads, each joined once; and the trace is the trace of the
loop, in which every join stands right before the create that reuses its ring
slot, followed by the joins of the final loop over the first
`min MAX_THREADS (columns*rows)` slots. -/
theorem C9_one_thread_per_section_each_joined_once (MAX_THREADS : Nat) (columns rows : Int)
    (_hc : 1 ≤ columns) (_hr : 1 ≤ rows) (hM : 1 ≤ MAX_THREADS) :
    (dispatch_trace MAX_THREADS columns rows).filterMap created_cell = grid_cells columns rows ∧
      ((dispatch_trace MAX_THREADS columns rows).filterMap created_cell).Nodup ∧
      ((dispatch_trace MAX_THREADS columns rows).filterMap created_cell).length
        = columns.toNat * rows.toNat ∧
      (∀ x y, 0 ≤ x → x < columns → 0 ≤ y → y < rows →
        (x, y) ∈ (dispatch_trace MAX_THREADS columns rows).filterMap created_cell) ∧
      ((dispatch_trace MAX_THREADS columns rows).filterMap created_slot).map Prod.snd
        = List.range (columns.toNat * rows.toNat) ∧
      (((dispatch_trace MAX_THREADS columns rows).filterMap joined_slot).map Prod.snd).Perm
        ((List.range (columns.toNat * rows.toNat)).map some) ∧
      ∃ (loop_tr : List thread_event) (handle : Nat → Nat),
        dispatch_trace MAX_THREADS columns rows
            = loop_tr ++ (List.range (min MAX_THREADS (columns.toNat * rows.toNat))).map
                (fun i => thread_event.join i (some (handle i))) ∧
          ∀ slot h, thread_event.join slot h ∈ loop_tr →
            ∃ pre post t x y, h = some t ∧
              loop_tr = pre ++ thread_event.join slot (some t)
                :: thread_event.create slot (t + MAX_THREADS) x y :: post := by
  have hinv := ring_inv_loop MAX_THREADS hM columns rows
  have htr := dispatch_trace_eq MAX_THREADS hM columns rows
  refine ⟨created_cells_eq _ _ _, ?_, ?_, ?_, ?_, ?_, ?_⟩
  · rw [created_cells_eq]
    exact nodup_grid_cells _ _
  · rw [created_cells_eq, length_grid_cells]
  · intro x y h1 h2 h3 h4
    rw [created_cells_eq, mem_grid_cells]
    exact ⟨h1, h2, h3, h4⟩
  · rw [htr, List.filterMap_append, join_calls_created, List.append_nil, hinv.creates,
      List.map_map]
    exact List.map_id _
  · rw [htr, List.filterMap_append, join_calls_joined, hinv.joins, List.map_append,
      List.map_map, List.map_map]
    exact joined_handles_perm MAX_THREADS _ hM _ hinv
  · refine ⟨(dispatch_loop MAX_THREADS columns rows).trace,
      fun i => ((dispatch_loop MAX_THREADS columns rows).p_threads i).getD 0, ?_, hinv.rejoin⟩
    rw [htr]
    congr 1
    apply List.map_congr_left
    intro i hi
    rw [List.mem_range] at hi
    obtain ⟨t, ht⟩ := hinv.filled i (by omega) (by omega)
    simp only [ht, Option.getD_some]

/-- Instance of C9 with a ring of 2 slots and the grid of 2 columns and 3 rows. -/
theorem C9_one_thread_per_section_each_joined_once_witness :
    (1 ≤ (2 : Int) ∧ 1 ≤ (3 : Int) ∧ 1 ≤ 2) ∧
      ((dispatch_trace 2 2 3).filterMap created_cell = grid_cells 2 3 ∧
        ((dispatch_trace 2 2 3).filterMap created_cell).Nodup ∧
        ((dispatch_trace 2 2 3).filterMap created_cell).length
          = (2 : Int).toNat * (3 : Int).toNat ∧
        (∀ x y, 0 ≤ x → x < (2 : Int) → 0 ≤ y → y < (3 : Int) →
          (x, y) ∈ (dispatch_trace 2 2 3).filterMap created_cell) ∧
        ((dispatch_trace 2 2 3).filterMap created_slot).map Prod.snd
          = List.range ((2 : Int).toNat * (3 : Int).toNat) ∧
        (((dispatch_trace 2 2 3).filterMap joined_slot).map Prod.snd).Perm
          ((List.range ((2 : Int).toNat * (3 : Int).toNat)).map some) ∧
        ∃ (loop_tr : List thread_event) (handle : Nat → Nat),
          dispatch_trace 2 2 3
              = loop_tr ++ (List.range (min 2 ((2 : Int).toNat * (3 : Int).toNat))).map
                  (fun i => thread_event.join i (some (handle i))) ∧
            ∀ slot h, thread_event.join slot h ∈ loop_tr →
              ∃ pre post t x y, h = some t ∧
                loop_tr = pre ++ thread_event.join slot (some t)
                  :: thread_event.create slot (t + 2) x y :: post) :=
  ⟨by decide,
    C9_one_thread_per_section_each_joined_once 2 2 3 (by decide) (by decide) (by decide)⟩

/-! ## C10 : the ring slots and the cap on live threads -/

/-- C10.  With `MAX_THREADS ≥ 1`, in the dispatch loop of `run_exprmt`, for
every `N ≥ 1` up to the number of tasks: the `N`-th `pthread_create` call
(1-indexed) stores its thread in ring slot `(N-1) mod MAX_THREADS`, which is
below `MAX_THREADS`; when `N > MAX_THREADS` the call right before it is the
join of that slot, whose handle is the thread created `MAX_THREADS` tasks
earlier.  The loop joins the threads in the order of their creation, oldest
first, and after every prefix of the calls of the run the number of threads
created and not yet joined is at most `MAX_THREADS`. -/
theorem C10_ring_slot_and_live_thread_cap (MAX_THREADS : Nat) (columns rows : Int)
    (hM : 1 ≤ MAX_THREADS) :
    (∀ N, 1 ≤ N → N ≤ columns.toNat * rows.toNat →
      (N - 1) % MAX_THREADS < MAX_THREADS ∧
        ((dispatch_trace MAX_THREADS columns rows).filterMap created_slot)[N - 1]?
          = some ((N - 1) % MAX_THREADS, N - 1) ∧
        (MAX_THREADS < N → ∃ pre post x y,
          dispatch_trace MAX_THREADS columns rows
            = pre ++ thread_event.join ((N - 1) % MAX_THREADS) (some (N - 1 - MAX_THREADS))
              :: thread_event.create ((N - 1) % MAX_THREADS) (N - 1) x y :: post)) ∧
      ((dispatch_loop MAX_THREADS columns rows).trace.filterMap joined_slot).map Prod.snd
        = (List.range (columns.toNat * rows.toNat - MAX_THREADS)).map some ∧
      ∀ pre, pre <+: dispatch_trace MAX_THREADS columns rows →
        live_threads pre ≤ MAX_THREADS := by
  have hinv := ring_inv_loop MAX_THREADS hM columns rows
  have htr := dispatch_trace_eq MAX_THREADS hM columns rows
  have hcr : (dispatch_trace MAX_THREADS columns rows).filterMap created_slot
      = (List.range (columns.toNat * rows.toNat)).map fun t => (t % MAX_THREADS, t) := by
    rw [htr, List.filterMap_append, join_calls_created, List.append_nil, hinv.creates]
  refine ⟨?_, ?_, ?_⟩
  · intro N h1 hN
    refine ⟨Nat.mod_lt _ (by omega), ?_, ?_⟩
    · rw [hcr, List.getElem?_map, List.getElem?_range (by omega)]
      rfl
    · intro hlt
      have hmem : ((N - 1) % MAX_THREADS, N - 1)
          ∈ (dispatch_loop MAX_THREADS columns rows).trace.filterMap created_slot := by
        rw [hinv.creates, List.mem_map]
        exact ⟨N - 1, List.mem_range.2 (by omega), rfl⟩
      rw [List.mem_filterMap] at hmem
      obtain ⟨e, he, hslot⟩ := hmem
      cases e with
      | join slot h => simp [created_slot] at hslot
      | create slot tid x y =>
        simp only [created_slot, Option.some.injEq, Prod.mk.injEq] at hslot
        obtain ⟨rfl, rfl⟩ := hslot
        obtain ⟨pre, post, e⟩ := hinv.reuse _ _ x y he (by omega)
        refine ⟨pre, post ++ (List.range (min MAX_THREADS (columns.toNat * rows.toNat))).map
            (fun i => thread_event.join i
              ((dispatch_loop MAX_THREADS columns rows).p_threads i)), x, y, ?_⟩
        rw [htr, e]
        simp
  · rw [hinv.joins, List.map_map]
    rfl
  · intro pre hpre
    rw [htr] at hpre
    -- a prefix of the loop trace, or the loop trace followed by some of the final joins
    rcases List.prefix_or_prefix_of_prefix hpre (List.prefix_append _ _) with hp | hp
    · exact hinv.live pre hp
    · obtain ⟨rest, rfl⟩ := hp
      rw [List.prefix_append_right_inj] at hpre
      obtain ⟨rest', hrest⟩ := hpre
      have hle := hinv.live _ (List.prefix_refl _)
      have hcre : rest.filterMap created_slot = [] := by
        have h0 := congrArg (List.filterMap created_slot) hrest
        rw [join_calls_created, List.filterMap_append] at h0
        exact (List.append_eq_nil.1 h0).1
      simp only [live_threads, List.filterMap_append, hcre, List.append_nil,
        List.length_append] at hle ⊢
      push_cast
      omega

/-- Instance of C10 with a ring of 2 slots and the grid of 5 columns and 2 rows:
the shape of the capacity test, 10 sections and at most 2 live threads. -/
theorem C10_ring_slot_and_live_thread_cap_witness :
    1 ≤ 2 ∧
      ((∀ N, 1 ≤ N → N ≤ (5 : Int).toNat * (2 : Int).toNat →
        (N - 1) % 2 < 2 ∧
          ((dispatch_trace 2 5 2).filterMap created_slot)[N - 1]? = some ((N - 1) % 2, N - 1) ∧
          (2 < N → ∃ pre post x y,
            dispatch_trace 2 5 2
              = pre ++ thread_event.join ((N - 1) % 2) (some (N - 1 - 2))
                :: thread_event.create ((N - 1) % 2) (N - 1) x y :: post)) ∧
        ((dispatch_loop 2 5 2).trace.filterMap joined_slot).map Prod.snd
          = (List.range ((5 : Int).toNat * (2 : Int).toNat - 2)).map some ∧
        ∀ pre, pre <+: dispatch_trace 2 5 2 → live_threads pre ≤ 2) :=
  ⟨by decide, C10_ring_slot_and_live_thread_cap 2 5 2 (by decide)⟩

/-! ## C11 : a single bright pixel -/

/-- With the 1x1 grid the run is the single worker of the whole interior, which
reads the unmodified copy. -/
theorem run_exprmt_one (MAX_THREADS : Nat) (mem : Int → Int → worker) (pic : picture) :
    run_exprmt MAX_THREADS mem pic 1 1
      = some (blurred_in (worker.mk 1 1 (pic.height - 2) (pic.width - 2))
          (copy_picture pic)) := by
  unfold run_exprmt
  simp only
  rw [issued_workers_one]
  unfold run_workers
  rw [List.foldlM_cons, blur_section_interior]
  · rfl
  · intro i j h
    simp only [in_section, interior, copy_picture] at h ⊢
    omega

/-- Three consecutive values of a function that is `v` at `p` and 0 at the
other points add up to `v` if `p` is among the three points and to 0 if not. -/
theorem spot_sum_line (h : Int → Nat) (p j : Int) (v : Nat)
    (hz : ∀ y, j - 1 ≤ y → y ≤ j + 1 → y ≠ p → h y = 0) (hp : h p = v) :
    h (j - 1) + h j + h (j + 1) = if j - 1 ≤ p ∧ p ≤ j + 1 then v else 0 := by
  have key : ∀ y, j - 1 ≤ y → y ≤ j + 1 → (y = p ∧ h y = v) ∨ (y ≠ p ∧ h y = 0) := by
    intro y h1 h2
    by_cases e : y = p
    · subst e
      exact Or.inl ⟨rfl, hp⟩
    · exact Or.inr ⟨e, hz y h1 h2 e⟩
  have e1 := key (j - 1) (by omega) (by omega)
  have e2 := key j (by omega) (by omega)
  have e3 := key (j + 1) (by omega) (by omega)
  split_ifs with hc <;> omega

/-- The sum over a 3x3 window of a function that is `v` at `(px, py)` and 0 at
the other points of the window. -/
theorem spot_sum_window (f : Int → Int → Nat) (px py i j : Int) (v : Nat)
    (hp : f px py = v)
    (h0 : ∀ x y, i - 1 ≤ x → x ≤ i + 1 → j - 1 ≤ y → y ≤ j + 1 → (x ≠ px ∨ y ≠ py) →
      f x y = 0) :
    f (i-1) (j-1) + f (i-1) j + f (i-1) (j+1) + f i (j-1) + f i j + f i (j+1)
        + f (i+1) (j-1) + f (i+1) j + f (i+1) (j+1)
      = if i - 1 ≤ px ∧ px ≤ i + 1 ∧ j - 1 ≤ py ∧ py ≤ j + 1 then v else 0 := by
  by_cases hx : i - 1 ≤ px ∧ px ≤ i + 1
  · have hcol := spot_sum_line (fun x => f x (j - 1) + f x j + f x (j + 1)) px i
      (if j - 1 ≤ py ∧ py ≤ j + 1 then v else 0)
      (by
        intro x h1 h2 hne
        simp only
        rw [h0 x (j - 1) h1 h2 (by omega) (by omega) (Or.inl hne),
          h0 x j h1 h2 (by omega) (by omega) (Or.inl hne),
          h0 x (j + 1) h1 h2 (by omega) (by omega) (Or.inl hne)])
      (spot_sum_line (fun y => f px y) py j v
        (fun y h1 h2 hne => h0 px y hx.1 hx.2 h1 h2 (Or.inr hne)) hp)
    simp only at hcol
    split_ifs at hcol ⊢ with a b <;> omega
  · have z : ∀ x y, i - 1 ≤ x → x ≤ i + 1 → j - 1 ≤ y → y ≤ j + 1 → f x y = 0 :=
      fun x y h1 h2 h3 h4 => h0 x y h1 h2 h3 h4 (Or.inl (by omega))
    rw [z (i-1) (j-1) (by omega) (by omega) (by omega) (by omega),
      z (i-1) j (by omega) (by omega) (by omega) (by omega),
      z (i-1) (j+1) (by omega) (by omega) (by omega) (by omega),
      z i (j-1) (by omega) (by omega) (by omega) (by omega),
      z i j (by omega) (by omega) (by omega) (by omega),
      z i (j+1) (by omega) (by omega) (by omega) (by omega),
      z (i+1) (j-1) (by omega) (by omega) (by omega) (by omega),
      z (i+1) j (by omega) (by omega) (by omega) (by omega),
      z (i+1) (j+1) (by omega) (by omega) (by omega) (by omega)]
    rw [if_neg (fun hc => hx ⟨hc.1, hc.2.1⟩)]

/-- The channel sums at an interior pixel of a picture that is black except for
the colour `c` at `(px, py)`. -/
theorem box_sums_spot (pic : picture) (px py : Int) (c : pixel) (hc : pic.img px py = c)
    (hblack : ∀ x y, in_bounds pic x y → (x ≠ px ∨ y ≠ py) → pic.img x y = black)
    (i j : Int) (hij : interior pic i j) :
    box_sums pic i j
      = if i - 1 ≤ px ∧ px ≤ i + 1 ∧ j - 1 ≤ py ∧ py ≤ j + 1 then
          { sum_red := c.red, sum_green := c.green, sum_blue := c.blue }
        else { sum_red := 0, sum_green := 0, sum_blue := 0 } := by
  obtain ⟨a1, a2, a3, a4⟩ := hij
  have hin : ∀ x y, i - 1 ≤ x → x ≤ i + 1 → j - 1 ≤ y → y ≤ j + 1 → in_bounds pic x y :=
    fun x y h1 h2 h3 h4 => ⟨by omega, by omega, by omega, by omega⟩
  have hr := spot_sum_window (fun x y => ((pic.img x y).red : Nat)) px py i j c.red
    (by simp only [hc])
    (fun x y h1 h2 h3 h4 hne => by simp only [hblack x y (hin x y h1 h2 h3 h4) hne]; rfl)
  have hg := spot_sum_window (fun x y => ((pic.img x y).green : Nat)) px py i j c.green
    (by simp only [hc])
    (fun x y h1 h2 h3 h4 hne => by simp only [hblack x y (hin x y h1 h2 h3 h4) hne]; rfl)
  have hb := spot_sum_window (fun x y => ((pic.img x y).blue : Nat)) px py i j c.blue
    (by simp only [hc])
    (fun x y h1 h2 h3 h4 hne => by simp only [hblack x y (hin x y h1 h2 h3 h4) hne]; rfl)
  simp only at hr hg hb
  simp only [box_sums, hr, hg, hb]
  split_ifs <;> rfl

/-- C11.  For every `7 x 7` picture (interior `5 x 5`) that is black everywhere
except for one interior pixel `(px, py)` of colour `c`, blurring with the 1x1
grid succeeds; every interior pixel among the 8 neighbours of `(px, py)` gets
the colour `(c.red / 9, c.green / 9, c.blue / 9)`, with integer division, and
every pixel that is neither `(px, py)` nor one of its 8 neighbours is black
after the blur. -/
theorem C11_single_bright_pixel (MAX_THREADS : Nat) (mem : Int → Int → worker)
    (pic : picture) (px py : Int) (c : pixel)
    (hw : pic.width = 7) (hh : pic.height = 7) (_hp : interior pic px py)
    (hc : pic.img px py = c)
    (hblack : ∀ x y, in_bounds pic x y → (x ≠ px ∨ y ≠ py) → pic.img x y = black) :
    ∃ p, run_exprmt MAX_THREADS mem pic 1 1 = some p ∧
      (∀ i j, interior pic i j → (i ≠ px ∨ j ≠ py) →
        px - 1 ≤ i → i ≤ px + 1 → py - 1 ≤ j → j ≤ py + 1 →
          ((p.img i j).red : Nat) = (c.red : Nat) / 9 ∧
            ((p.img i j).green : Nat) = (c.green : Nat) / 9 ∧
            ((p.img i j).blue : Nat) = (c.blue : Nat) / 9) ∧
      (∀ i j, in_bounds pic i j →
        ¬ (px - 1 ≤ i ∧ i ≤ px + 1 ∧ py - 1 ≤ j ∧ j ≤ py + 1) → p.img i j = black) := by
  have hsec : ∀ i j,
      in_section (worker.mk 1 1 (pic.height - 2) (pic.width - 2)) i j ↔ interior pic i j := by
    intro i j
    simp only [in_section, interior]
    omega
  have himg : ∀ i j, interior pic i j →
      (blurred_in (worker.mk 1 1 (pic.height - 2) (pic.width - 2)) (copy_picture pic)).img i j
        = averaged (box_sums pic i j) := by
    intro i j hij
    simp only [blurred_in, if_pos ((hsec i j).2 hij), box_average, box_sums, copy_picture,
      copy_image]
  refine ⟨_, run_exprmt_one MAX_THREADS mem pic, ?_, ?_⟩
  · intro i j hij _ h1 h2 h3 h4
    rw [himg i j hij, box_sums_spot pic px py c hc hblack i j hij,
      if_pos ⟨by omega, by omega, by omega, by omega⟩]
    simp only [averaged, BLUR_REGION_SIZE]
    have r := c.red.isLt
    have g := c.green.isLt
    have b := c.blue.isLt
    exact ⟨to_channel_val _ (by omega), to_channel_val _ (by omega),
      to_channel_val _ (by omega)⟩
  · intro i j hin hfar
    by_cases hij : interior pic i j
    · rw [himg i j hij, box_sums_spot pic px py c hc hblack i j hij,
        if_neg (fun hwin => hfar ⟨by omega, by omega, by omega, by omega⟩)]
      rfl
    · simp only [blurred_in, if_neg (fun hs => hij ((hsec i j).1 hs)), copy_picture,
        copy_image]
      exact hblack i j hin (by omega)

/-- Instance of C11 on the picture `pic_7x7`, bright pixel `(2, 3)`. -/
theorem C11_single_bright_pixel_witness :
    (pic_7x7.width = 7 ∧ pic_7x7.height = 7 ∧ interior pic_7x7 2 3 ∧
        pic_7x7.img 2 3 = ⟨90, 45, 9⟩ ∧
        ∀ x y, in_bounds pic_7x7 x y → (x ≠ 2 ∨ y ≠ 3) → pic_7x7.img x y = black) ∧
      ∃ p, run_exprmt 1000 mem0 pic_7x7 1 1 = some p ∧
        (∀ i j, interior pic_7x7 i j → (i ≠ 2 ∨ j ≠ 3) →
          2 - 1 ≤ i → i ≤ 2 + 1 → 3 - 1 ≤ j → j ≤ 3 + 1 →
            ((p.img i j).red : Nat) = ((⟨90, 45, 9⟩ : pixel).red : Nat) / 9 ∧
              ((p.img i j).green : Nat) = ((⟨90, 45, 9⟩ : pixel).green : Nat) / 9 ∧
              ((p.img i j).blue : Nat) = ((⟨90, 45, 9⟩ : pixel).blue : Nat) / 9) ∧
        (∀ i j, in_bounds pic_7x7 i j →
          ¬ (2 - 1 ≤ i ∧ i ≤ 2 + 1 ∧ 3 - 1 ≤ j ∧ j ≤ 3 + 1) → p.img i j = black) :=
  have hb : ∀ x y, in_bounds pic_7x7 x y → (x ≠ 2 ∨ y ≠ 3) → pic_7x7.img x y = black := by
    intro x y _ hne
    have h : ¬ (x = 2 ∧ y = 3) := fun e => hne.elim (fun a => a e.1) (fun a => a e.2)
    simp only [pic_7x7, if_neg h]
  ⟨⟨rfl, rfl, by decide, rfl, hb⟩,
    C11_single_bright_pixel 1000 mem0 pic_7x7 2 3 ⟨90, 45, 9⟩ rfl rfl (by decide) rfl hb⟩

/-! ## C12 : every pixel access of a planned section is in range -/

theorem mem_get_coords (w : worker) (c : Int × Int) :
    c ∈ get_coords w ↔
      ∃ i j n m, in_section w i j ∧ -1 ≤ n ∧ n ≤ 1 ∧ -1 ≤ m ∧ m ≤ 1 ∧ c = (i + n, j + m) := by
  simp only [get_coords, List.mem_flatMap, List.mem_map, mem_int_range, in_section]
  constructor
  · rintro ⟨i, hi, j, hj, n, hn, m, hm, rfl⟩
    exact ⟨i, j, n, m, ⟨hi.1, hi.2, hj.1, hj.2⟩, hn.1, by omega, hm.1, by omega, rfl⟩
  · rintro ⟨i, j, n, m, ⟨h1, h2, h3, h4⟩, h5, h6, h7, h8, rfl⟩
    exact ⟨i, ⟨h1, h2⟩, j, ⟨h3, h4⟩, n, ⟨h5, by omega⟩, m, ⟨h7, by omega⟩, rfl⟩

theorem mem_set_coords (w : worker) (c : Int × Int) :
    c ∈ set_coords w ↔ in_section w c.1 c.2 := by
  obtain ⟨a, b⟩ := c
  simp only [set_coords, List.mem_flatMap, List.mem_map, mem_int_range, in_section,
    Prod.mk.injEq]
  constructor
  · rintro ⟨i, hi, j, hj, rfl, rfl⟩
    exact ⟨hi.1, hi.2, hj.1, hj.2⟩
  · rintro ⟨h1, h2, h3, h4⟩
    exact ⟨a, ⟨h1, h2⟩, b, ⟨h3, h4⟩, rfl, rfl⟩

/-- C12.  For every picture of width `W` and height `H` and every grid with
columns ≥ 1 and rows ≥ 1, for every section `run_exprmt` computes, every
coordinate `blur_section` passes to `get_pixel` (`(i+n, j+m)`) or to
`set_pixel` (`(i, j)`) satisfies `0 ≤ x < W` and `0 ≤ y < H`; and run on a
shared picture of these dimensions the worker never takes the out-of-range
branch: it completes. -/
theorem C12_planned_accesses_in_range (MAX_THREADS : Nat) (mem : Int → Int → worker)
    (pic : picture) (columns rows : Int) (hc : 1 ≤ columns) (hr : 1 ≤ rows) :
    ∀ w ∈ issued_workers MAX_THREADS mem (copy_picture pic) columns rows,
      (∀ c ∈ get_coords w, 0 ≤ c.1 ∧ c.1 < pic.width ∧ 0 ≤ c.2 ∧ c.2 < pic.height) ∧
        (∀ c ∈ set_coords w, 0 ≤ c.1 ∧ c.1 < pic.width ∧ 0 ≤ c.2 ∧ c.2 < pic.height) ∧
        ∀ shared : picture, shared.width = pic.width → shared.height = pic.height →
          ∃ p, blur_section w shared = some p := by
  intro w hw
  have hin : ∀ i j, in_section w i j →
      1 ≤ i ∧ i ≤ pic.width - 2 ∧ 1 ≤ j ∧ j ≤ pic.height - 2 :=
    issued_workers_inside MAX_THREADS mem (copy_picture pic) columns rows hc hr w hw
  refine ⟨?_, ?_, ?_⟩
  · intro c hcm
    rw [mem_get_coords] at hcm
    obtain ⟨i, j, n, m, hs, h1, h2, h3, h4, rfl⟩ := hcm
    obtain ⟨a1, a2, a3, a4⟩ := hin i j hs
    simp only
    omega
  · intro c hcm
    rw [mem_set_coords] at hcm
    obtain ⟨a1, a2, a3, a4⟩ := hin c.1 c.2 hcm
    omega
  · intro shared hsw hsh
    refine ⟨_, blur_section_interior w shared ?_⟩
    intro i j hs
    obtain ⟨a1, a2, a3, a4⟩ := hin i j hs
    exact ⟨a1, by omega, a3, by omega⟩

/-- Instance of C12 on `pic_5x5` with the grid of 2 columns and 2 rows. -/
theorem C12_planned_accesses_in_range_witness :
    (1 ≤ (2 : Int) ∧ 1 ≤ (2 : Int)) ∧
      ∀ w ∈ issued_workers 1000 mem0 (copy_picture pic_5x5) 2 2,
        (∀ c ∈ get_coords w,
            0 ≤ c.1 ∧ c.1 < pic_5x5.width ∧ 0 ≤ c.2 ∧ c.2 < pic_5x5.height) ∧
          (∀ c ∈ set_coords w,
            0 ≤ c.1 ∧ c.1 < pic_5x5.width ∧ 0 ≤ c.2 ∧ c.2 < pic_5x5.height) ∧
          ∀ shared : picture, shared.width = pic_5x5.width → shared.height = pic_5x5.height →
            ∃ p, blur_section w shared = some p :=
  ⟨by decide, C12_planned_accesses_in_range 1000 mem0 pic_5x5 2 2 (by decide) (by decide)⟩

/-! ## C13 : the write footprint of one worker -/

theorem nodup_set_coords (w : worker) : (set_coords w).Nodup := by
  unfold set_coords
  rw [List.nodup_flatMap]
  constructor
  · intro x _
    refine List.Nodup.map ?_ (nodup_int_range _ _)
    intro a b h
    simpa using h
  · refine List.Nodup.pairwise_of_forall_ne (nodup_int_range _ _) ?_
    intro a _ b _ hab
    simp only [Function.onFun]
    intro c hc1 hc2
    simp only [List.mem_map] at hc1 hc2
    obtain ⟨_, _, rfl⟩ := hc1
    obtain ⟨_, _, h⟩ := hc2
    simp only [Prod.mk.injEq] at h
    exact hab h.1.symm

/-- C13.  A section is a rectangle that lies in the interior of the picture
(the data model of the spec, and the only kind `run_exprmt` issues).  For every
such section `(top_left_x, top_left_y, width, height)` and every picture, a
single run of `blur_section` completes, keeps the dimensions, writes every
pixel `(i, j)` with `top_left_x ≤ i < top_left_x + width` and
`top_left_y ≤ j < top_left_y + height` (with the box average of the picture as
it was when the run started), and leaves every pixel outside that rectangle
with the value it had before the run. -/
theorem C13_write_footprint_is_the_section (w : worker) (pic : picture)
    (hin : ∀ i j, in_section w i j → interior pic i j) :
    ∃ p, blur_section w pic = some p ∧
      p.width = pic.width ∧ p.height = pic.height ∧
      (∀ i j, w.top_left_x ≤ i → i < w.top_left_x + w.width →
        w.top_left_y ≤ j → j < w.top_left_y + w.height →
          p.img i j = box_average pic i j) ∧
      (∀ i j, ¬ (w.top_left_x ≤ i ∧ i < w.top_left_x + w.width ∧
          w.top_left_y ≤ j ∧ j < w.top_left_y + w.height) →
        p.img i j = pic.img i j) := by
  refine ⟨_, blur_section_interior w pic hin, rfl, rfl, ?_, ?_⟩
  · intro i j h1 h2 h3 h4
    have hs : in_section w i j := ⟨h1, h2, h3, h4⟩
    simp only [blurred_in, if_pos hs]
  · intro i j hs
    have hs' : ¬ in_section w i j := hs
    simp only [blurred_in, if_neg hs']

/-- Instance of C13: the section with top-left corner `(2, 1)`, width 1 and
height 2 on `pic_5x5`, one of the rectangles inside the interior `3 x 3`. -/
theorem C13_write_footprint_is_the_section_witness :
    (∀ i j, in_section (worker.mk 2 1 2 1) i j → interior pic_5x5 i j) ∧
      ∃ p, blur_section (worker.mk 2 1 2 1) pic_5x5 = some p ∧
        p.width = pic_5x5.width ∧ p.height = pic_5x5.height ∧
        (∀ i j, (2 : Int) ≤ i → i < 2 + 1 → (1 : Int) ≤ j → j < 1 + 2 →
          p.img i j = box_average pic_5x5 i j) ∧
        (∀ i j, ¬ ((2 : Int) ≤ i ∧ i < 2 + 1 ∧ (1 : Int) ≤ j ∧ j < 1 + 2) →
          p.img i j = pic_5x5.img i j) :=
  have hin : ∀ i j, in_section (worker.mk 2 1 2 1) i j → interior pic_5x5 i j := by
    intro i j h
    simp only [in_section, interior, pic_5x5] at h ⊢
    omega
  ⟨hin, C13_write_footprint_is_the_section (worker.mk 2 1 2 1) pic_5x5 hin⟩

/-! ## C14 : the top-left corner of the k-th section -/

/-- In a nest of two loops the iteration for the `a`-th outer and `b`-th inner
value is iteration number `a * (inner length) + b`. -/
theorem flatMap_pairs_getElem {α β : Type} (xs : List α) (ys : List β) (a b : Nat) (x : α)
    (y : β) (hx : xs[a]? = some x) (hy : ys[b]? = some y) :
    (xs.flatMap fun x => ys.map fun y => (x, y))[a * ys.length + b]? = some (x, y) := by
  have hb : b < ys.length := by
    by_contra hc
    rw [List.getElem?_eq_none (by omega)] at hy
    exact absurd hy (by simp)
  induction xs generalizing a with
  | nil => simp at hx
  | cons x0 xs ih =>
    rw [List.flatMap_cons]
    cases a with
    | zero =>
      simp only [List.getElem?_cons_zero, Option.some.injEq] at hx
      subst hx
      rw [Nat.zero_mul, Nat.zero_add, List.getElem?_append_left (by simpa using hb),
        List.getElem?_map, hy]
      rfl
    | succ a =>
      rw [List.getElem?_cons_succ] at hx
      rw [List.getElem?_append_right (by rw [List.length_map, Nat.succ_mul]; omega),
        List.length_map]
      have e : (a + 1) * ys.length + b - ys.length = a * ys.length + b := by
        rw [Nat.succ_mul]
        omega
      rw [e]
      exact ih a hx

theorem int_range_getElem (lo hi : Int) (k : Nat) (hk : k < (hi - lo).toNat) :
    (int_range lo hi)[k]? = some (lo + (k : Int)) := by
  unfold int_range
  rw [List.getElem?_map, List.getElem?_range hk]
  rfl

/-- Cell `(cx, cy)` is visited by iteration number `cx * rows + cy` of the loop
nest. -/
theorem grid_cells_getElem (columns rows cx cy : Int) (hx0 : 0 ≤ cx) (hx : cx < columns)
    (hy0 : 0 ≤ cy) (hy : cy < rows) :
    (grid_cells columns rows)[(cx * rows + cy).toNat]? = some (cx, cy) := by
  have e : cx * rows + cy
      = ((cx.toNat * (int_range 0 rows).length + cy.toNat : Nat) : Int) := by
    rw [length_int_range]
    push_cast
    rw [Int.toNat_of_nonneg hx0, Int.toNat_of_nonneg hy0, Int.toNat_of_nonneg (by omega)]
    ring
  rw [e, Int.toNat_natCast]
  unfold grid_cells
  apply flatMap_pairs_getElem
  · rw [int_range_getElem 0 columns cx.toNat (by omega), Int.toNat_of_nonneg hx0]
    simp
  · rw [int_range_getElem 0 rows cy.toNat (by omega), Int.toNat_of_nonneg hy0]
    simp

/-- C14.  For every grid with columns ≥ 1 and rows ≥ 1 and every cell
`0 ≤ cx < columns`, `0 ≤ cy < rows`, the thread issued with number
`k = cx * rows + cy` (0-indexed, column-major order) is the one created for
cell `(cx, cy)`, and its section has the top-left corner
`(1 + base_width * cx, 1 + base_height * cy)`, where
`base_width = (width - 2) / columns` and `base_height = (height - 2) / rows`
by C integer division. -/
theorem C14_top_left_of_kth_section (MAX_THREADS : Nat) (mem : Int → Int → worker)
    (pic : picture) (columns rows cx cy : Int) (_hc : 1 ≤ columns) (_hr : 1 ≤ rows)
    (hx0 : 0 ≤ cx) (hx : cx < columns) (hy0 : 0 ≤ cy) (hy : cy < rows) :
    ((dispatch_trace MAX_THREADS columns rows).filterMap created_cell)[(cx * rows + cy).toNat]?
        = some (cx, cy) ∧
      ∃ w, (issued_workers MAX_THREADS mem (copy_picture pic) columns rows)[
            (cx * rows + cy).toNat]? = some w ∧
        w.top_left_x = 1 + (pic.width - 2).tdiv columns * cx ∧
        w.top_left_y = 1 + (pic.height - 2).tdiv rows * cy := by
  have hcell := grid_cells_getElem columns rows cx cy hx0 hx hy0 hy
  refine ⟨by rw [created_cells_eq]; exact hcell, ?_⟩
  refine ⟨init_worker (mem cx cy) (copy_picture pic) columns rows cx cy, ?_, ?_, ?_⟩
  · rw [issued_workers_eq, List.getElem?_map, hcell]
    rfl
  · rw [init_worker_eq]
    rfl
  · rw [init_worker_eq]
    rfl

/-- Instance of C14 on `pic_5x5`, grid of 2 columns and 2 rows, cell `(1, 0)`. -/
theorem C14_top_left_of_kth_section_witness :
    (1 ≤ (2 : Int) ∧ 1 ≤ (2 : Int) ∧ 0 ≤ (1 : Int) ∧ (1 : Int) < 2 ∧ 0 ≤ (0 : Int)
        ∧ (0 : Int) < 2) ∧
      (((dispatch_trace 1000 2 2).filterMap created_cell)[((1 : Int) * 2 + 0).toNat]?
          = some (1, 0) ∧
        ∃ w, (issued_workers 1000 mem0 (copy_picture pic_5x5) 2 2)[
              ((1 : Int) * 2 + 0).toNat]? = some w ∧
          w.top_left_x = 1 + (pic_5x5.width - 2).tdiv 2 * 1 ∧
          w.top_left_y = 1 + (pic_5x5.height - 2).tdiv 2 * 0) :=
  ⟨by decide,
    C14_top_left_of_kth_section 1000 mem0 pic_5x5 2 2 1 0 (by decide) (by decide) (by decide)
      (by decide) (by decide) (by decide)⟩

/-! ## C15 : exact tiling when the grid divides the interior -/

/-- The sections of the issued workers are pairwise disjoint, for every grid. -/
theorem issued_workers_pairwise_disjoint (MAX_THREADS : Nat) (mem : Int → Int → worker)
    (pic_temp : picture) (x_divides y_divides : Int) :
    List.Pairwise (fun w w' => ∀ i j, ¬ (in_section w i j ∧ in_section w' i j))
      (issued_workers MAX_THREADS mem pic_temp x_divides y_divides) := by
  rw [issued_workers_eq, List.pairwise_map]
  refine List.Nodup.pairwise_of_forall_ne (nodup_grid_cells _ _) ?_
  rintro ⟨x, y⟩ _ ⟨x', y'⟩ _ hne i j ⟨h, h'⟩
  rw [init_worker_eq] at h h'
  obtain ⟨h1, h2, h3, h4⟩ := h
  obtain ⟨h1', h2', h3', h4'⟩ := h'
  simp only at h1 h2 h3 h4 h1' h2' h3' h4'
  by_cases hx : x = x'
  · have hy : y ≠ y' := fun hy => hne (by rw [hx, hy])
    exact strips_disjoint _ y y' j hy h3 h4 h3' h4'
  · exact strips_disjoint _ x x' i hx h1 h2 h1' h2'

theorem count_eq_one_of_nodup (l : List (Int × Int)) (c : Int × Int) (h : l.Nodup)
    (hm : c ∈ l) : l.count c = 1 := by
  induction l with
  | nil => exact absurd hm (List.not_mem_nil _)
  | cons x l ih =>
    obtain ⟨hx, hl⟩ := List.nodup_cons.1 h
    rw [List.count_cons]
    by_cases e : x = c
    · subst e
      rw [List.count_eq_zero_of_not_mem hx]
      simp
    · have hc : c ∈ l := (List.mem_cons.1 hm).resolve_left (fun e' => e e'.symm)
      rw [ih hl hc]
      simp [e]

/-- The number of `set_pixel` calls on a pixel over a list of workers is the
number of workers whose section holds the pixel. -/
theorem count_set_coords (ws : List worker) (c : Int × Int) :
    (ws.flatMap set_coords).count c
      = ws.countP fun w => decide (in_section w c.1 c.2) := by
  induction ws with
  | nil => rfl
  | cons w ws ih =>
    rw [List.flatMap_cons, List.count_append, ih, List.countP_cons, Nat.add_comm]
    congr 1
    by_cases h : in_section w c.1 c.2
    · rw [count_eq_one_of_nodup _ c (nodup_set_coords w) ((mem_set_coords w c).2 h)]
      simp [h]
    · rw [List.count_eq_zero_of_not_mem (fun hm => h ((mem_set_coords w c).1 hm))]
      simp [h]

/-- Along one axis, when `d` strips of size `q ≥ 1` make up `1 .. d * q`, every
point of that range lies in one of the strips. -/
theorem strip_exists (q d i : Int) (hq : 1 ≤ q) (h1 : 1 ≤ i) (h2 : i ≤ q * d) :
    ∃ x, 0 ≤ x ∧ x < d ∧ 1 + q * x ≤ i ∧ i < 1 + q * x + q := by
  refine ⟨(i - 1) / q, Int.ediv_nonneg (by omega) (by omega), ?_, ?_, ?_⟩
  · exact Int.ediv_lt_of_lt_mul (by omega) (by rw [Int.mul_comm]; omega)
  · have := Int.ediv_mul_le (i - 1) (show q ≠ 0 by omega)
    rw [Int.mul_comm] at this
    omega
  · have := Int.lt_ediv_add_one_mul_self (i - 1) (show 0 < q by omega)
    rw [Int.add_mul, Int.one_mul, Int.mul_comm] at this
    omega

theorem tdiv_mul_of_dvd (n d : Int) (hd : 1 ≤ d) (hq : 1 ≤ n.tdiv d) (hdvd : d ∣ n) :
    n.tdiv d * d = n := by
  have hn : 0 ≤ n := by
    have := (one_le_tdiv_iff n d hd).1 hq
    omega
  rw [Int.tdiv_eq_ediv hn (by omega)]
  exact Int.ediv_mul_cancel hdvd

/-- C15.  For every picture and grid where columns divides `width - 2` and
rows divides `height - 2`, both quotients being ≥ 1, the sections computed by
`run_exprmt` tile the interior exactly: every interior pixel lies in the
section of exactly one issued worker, and over all issued workers `set_pixel`
is called on it exactly once. -/
theorem C15_exact_tiling_when_divisible (MAX_THREADS : Nat) (mem : Int → Int → worker)
    (pic : picture) (columns rows : Int) (hc : 1 ≤ columns) (hr : 1 ≤ rows)
    (hdc : columns ∣ pic.width - 2) (hdr : rows ∣ pic.height - 2)
    (hqc : 1 ≤ (pic.width - 2).tdiv columns) (hqr : 1 ≤ (pic.height - 2).tdiv rows) :
    ∀ i j, 1 ≤ i → i ≤ pic.width - 2 → 1 ≤ j → j ≤ pic.height - 2 →
      (issued_workers MAX_THREADS mem (copy_picture pic) columns rows).countP
          (fun w => decide (in_section w i j)) = 1 ∧
        ((issued_workers MAX_THREADS mem (copy_picture pic) columns rows).flatMap
          set_coords).count (i, j) = 1 := by
  intro i j h1 h2 h3 h4
  have hmem : ∃ w ∈ issued_workers MAX_THREADS mem (copy_picture pic) columns rows,
      in_section w i j := by
    have ec := tdiv_mul_of_dvd _ _ hc hqc hdc
    have er := tdiv_mul_of_dvd _ _ hr hqr hdr
    obtain ⟨x, x0, x1, x2, x3⟩ := strip_exists ((pic.width - 2).tdiv columns) columns i hqc h1
      (by rw [ec]; exact h2)
    obtain ⟨y, y0, y1, y2, y3⟩ := strip_exists ((pic.height - 2).tdiv rows) rows j hqr h3
      (by rw [er]; exact h4)
    refine ⟨init_worker (mem x y) (copy_picture pic) columns rows x y, ?_, ?_⟩
    · rw [issued_workers_eq, List.mem_map]
      exact ⟨(x, y), (mem_grid_cells _ _ _).2 ⟨x0, x1, y0, y1⟩, rfl⟩
    · rw [init_worker_eq]
      exact ⟨x2, x3, y2, y3⟩
  have hcount : ((issued_workers MAX_THREADS mem (copy_picture pic) columns rows).flatMap
      set_coords).count (i, j) = 1 := by
    obtain ⟨w, hw, hs⟩ := hmem
    refine count_eq_one_of_nodup _ _ ?_ ?_
    · rw [List.nodup_flatMap]
      refine ⟨fun w _ => nodup_set_coords w, ?_⟩
      refine (issued_workers_pairwise_disjoint MAX_THREADS mem (copy_picture pic) columns
        rows).imp ?_
      intro a b hab c hca hcb
      exact hab c.1 c.2 ⟨(mem_set_coords a c).1 hca, (mem_set_coords b c).1 hcb⟩
    · rw [List.mem_flatMap]
      exact ⟨w, hw, (mem_set_coords w (i, j)).2 hs⟩
  refine ⟨?_, hcount⟩
  rw [← hcount, count_set_coords]

/-- Instance of C15 on the `4 x 3` picture with 2 columns and 1 row: the
interior is `2 x 1` and both quotients are 1. -/
theorem C15_exact_tiling_when_divisible_witness :
    (1 ≤ (2 : Int) ∧ 1 ≤ (1 : Int) ∧ (2 : Int) ∣ pic_4x3.width - 2 ∧
        (1 : Int) ∣ pic_4x3.height - 2 ∧ 1 ≤ (pic_4x3.width - 2).tdiv 2 ∧
        1 ≤ (pic_4x3.height - 2).tdiv 1) ∧
      ∀ i j, 1 ≤ i → i ≤ pic_4x3.width - 2 → 1 ≤ j → j ≤ pic_4x3.height - 2 →
        (issued_workers 1000 mem0 (copy_picture pic_4x3) 2 1).countP
            (fun w => decide (in_section w i j)) = 1 ∧
          ((issued_workers 1000 mem0 (copy_picture pic_4x3) 2 1).flatMap
            set_coords).count (i, j) = 1 :=
  ⟨by decide,
    C15_exact_tiling_when_divisible 1000 mem0 pic_4x3 2 1 (by decide) (by decide) (by decide)
      (by decide) (by decide) (by decide)⟩

/-! ## C16 : the average of nine 8-bit values -/

/-- The floor average of nine numbers lies between any lower bound and any
upper bound of the nine. -/
theorem average_between (a1 a2 a3 a4 a5 a6 a7 a8 a9 lo hi : Nat)
    (hlo : lo ≤ a1 ∧ lo ≤ a2 ∧ lo ≤ a3 ∧ lo ≤ a4 ∧ lo ≤ a5 ∧ lo ≤ a6 ∧ lo ≤ a7 ∧ lo ≤ a8
      ∧ lo ≤ a9)
    (hhi : a1 ≤ hi ∧ a2 ≤ hi ∧ a3 ≤ hi ∧ a4 ≤ hi ∧ a5 ≤ hi ∧ a6 ≤ hi ∧ a7 ≤ hi ∧ a8 ≤ hi
      ∧ a9 ≤ hi) :
    lo ≤ (a1 + a2 + a3 + a4 + a5 + a6 + a7 + a8 + a9) / 9 ∧
      (a1 + a2 + a3 + a4 + a5 + a6 + a7 + a8 + a9) / 9 ≤ hi := by
  omega

/-- Nine values below 256: their sum is at most 2295, the floor average lies
between the least and the greatest of them, and reducing it modulo 256 keeps
it. -/
theorem nine_bytes_average (a1 a2 a3 a4 a5 a6 a7 a8 a9 : Fin 256) :
    min a1.val (min a2.val (min a3.val (min a4.val (min a5.val (min a6.val (min a7.val
          (min a8.val a9.val)))))))
        ≤ (a1.val + a2.val + a3.val + a4.val + a5.val + a6.val + a7.val + a8.val + a9.val) / 9 ∧
      (a1.val + a2.val + a3.val + a4.val + a5.val + a6.val + a7.val + a8.val + a9.val) / 9
        ≤ max a1.val (max a2.val (max a3.val (max a4.val (max a5.val (max a6.val (max a7.val
          (max a8.val a9.val))))))) ∧
      (to_channel ((a1.val + a2.val + a3.val + a4.val + a5.val + a6.val + a7.val + a8.val
          + a9.val) / 9)).val
        = (a1.val + a2.val + a3.val + a4.val + a5.val + a6.val + a7.val + a8.val + a9.val) / 9 ∧
      a1.val + a2.val + a3.val + a4.val + a5.val + a6.val + a7.val + a8.val + a9.val ≤ 2295 := by
  have b1 := a1.isLt
  have b2 := a2.isLt
  have b3 := a3.isLt
  have b4 := a4.isLt
  have b5 := a5.isLt
  have b6 := a6.isLt
  have b7 := a7.isLt
  have b8 := a8.isLt
  have b9 := a9.isLt
  have hb := average_between a1.val a2.val a3.val a4.val a5.val a6.val a7.val a8.val a9.val
    (min a1.val (min a2.val (min a3.val (min a4.val (min a5.val (min a6.val (min a7.val
      (min a8.val a9.val))))))))
    (max a1.val (max a2.val (max a3.val (max a4.val (max a5.val (max a6.val (max a7.val
      (max a8.val a9.val))))))))
    (by simp only [min_le_iff, le_refl, true_or, or_true, and_self])
    (by simp only [le_max_iff, le_refl, true_or, or_true, and_self])
  exact ⟨hb.1, hb.2, to_channel_val _ (by omega), by omega⟩

/-- C16.  The nine values of a channel that `blur_section` reads around a pixel
are arbitrary 8-bit values (the buffer of `tmp_pic` is arbitrary).  Whenever
the nine reads are in range, the loops of `blur_section` return the three
sums of the nine values, each at most 2295 and so far below the largest `int`,
`2^31 - 1`; the pixel that `blur_section` then stores at `(i, j)` has in each
channel exactly `sum / 9`, nothing being lost in the store to the 8-bit
channel, and this value lies between the least and the greatest of the nine
values of that channel. -/
theorem C16_average_within_min_max (tmp p : picture) (i j : Int) (h : interior tmp i j)
    (hw : p.width = tmp.width) (hh : p.height = tmp.height) :
    ∃ s p', neighbourhood_sums tmp i j = some s ∧ s = box_sums tmp i j ∧
      blur_pixel tmp i p j = some p' ∧ p'.img i j = averaged s ∧
      (s.sum_red ≤ 2295 ∧ s.sum_green ≤ 2295 ∧ s.sum_blue ≤ 2295 ∧ 2295 ≤ 2 ^ 31 - 1) ∧
      (((averaged s).red : Nat) = s.sum_red / 9 ∧
        ((averaged s).green : Nat) = s.sum_green / 9 ∧
        ((averaged s).blue : Nat) = s.sum_blue / 9) ∧
      (neighbourhood_min tmp pixel.red i j ≤ ((averaged s).red : Nat) ∧
        ((averaged s).red : Nat) ≤ neighbourhood_max tmp pixel.red i j) ∧
      (neighbourhood_min tmp pixel.green i j ≤ ((averaged s).green : Nat) ∧
        ((averaged s).green : Nat) ≤ neighbourhood_max tmp pixel.green i j) ∧
      (neighbourhood_min tmp pixel.blue i j ≤ ((averaged s).blue : Nat) ∧
        ((averaged s).blue : Nat) ≤ neighbourhood_max tmp pixel.blue i j) := by
  have hr := nine_bytes_average (tmp.img (i-1) (j-1)).red (tmp.img (i-1) j).red
    (tmp.img (i-1) (j+1)).red (tmp.img i (j-1)).red (tmp.img i j).red (tmp.img i (j+1)).red
    (tmp.img (i+1) (j-1)).red (tmp.img (i+1) j).red (tmp.img (i+1) (j+1)).red
  have hg := nine_bytes_average (tmp.img (i-1) (j-1)).green (tmp.img (i-1) j).green
    (tmp.img (i-1) (j+1)).green (tmp.img i (j-1)).green (tmp.img i j).green
    (tmp.img i (j+1)).green (tmp.img (i+1) (j-1)).green (tmp.img (i+1) j).green
    (tmp.img (i+1) (j+1)).green
  have hb := nine_bytes_average (tmp.img (i-1) (j-1)).blue (tmp.img (i-1) j).blue
    (tmp.img (i-1) (j+1)).blue (tmp.img i (j-1)).blue (tmp.img i j).blue
    (tmp.img i (j+1)).blue (tmp.img (i+1) (j-1)).blue (tmp.img (i+1) j).blue
    (tmp.img (i+1) (j+1)).blue
  refine ⟨box_sums tmp i j, _, neighbourhood_sums_interior tmp i j h, rfl,
    blur_pixel_interior tmp p i j hw hh h, ?_, ?_, ?_, ?_, ?_, ?_⟩
  · simp only [box_average, and_self, if_true]
  · exact ⟨hr.2.2.2, hg.2.2.2, hb.2.2.2, by norm_num⟩
  · exact ⟨hr.2.2.1, hg.2.2.1, hb.2.2.1⟩
  · exact ⟨hr.2.2.1 ▸ hr.1, hr.2.2.1 ▸ hr.2.1⟩
  · exact ⟨hg.2.2.1 ▸ hg.1, hg.2.2.1 ▸ hg.2.1⟩
  · exact ⟨hb.2.2.1 ▸ hb.1, hb.2.2.1 ▸ hb.2.1⟩

/-- Instance of C16 on the white `3 x 3` picture at its centre: every sum is
`9 * 255 = 2295`, the largest possible. -/
theorem C16_average_within_min_max_witness :
    (interior pic_white 1 1 ∧ pic_white.width = pic_white.width ∧
        pic_white.height = pic_white.height) ∧
      ∃ s p', neighbourhood_sums pic_white 1 1 = some s ∧ s = box_sums pic_white 1 1 ∧
        blur_pixel pic_white 1 pic_white 1 = some p' ∧ p'.img 1 1 = averaged s ∧
        (s.sum_red ≤ 2295 ∧ s.sum_green ≤ 2295 ∧ s.sum_blue ≤ 2295 ∧ 2295 ≤ 2 ^ 31 - 1) ∧
        (((averaged s).red : Nat) = s.sum_red / 9 ∧
          ((averaged s).green : Nat) = s.sum_green / 9 ∧
          ((averaged s).blue : Nat) = s.sum_blue / 9) ∧
        (neighbourhood_min pic_white pixel.red 1 1 ≤ ((averaged s).red : Nat) ∧
          ((averaged s).red : Nat) ≤ neighbourhood_max pic_white pixel.red 1 1) ∧
        (neighbourhood_min pic_white pixel.green 1 1 ≤ ((averaged s).green : Nat) ∧
          ((averaged s).green : Nat) ≤ neighbourhood_max pic_white pixel.green 1 1) ∧
        (neighbourhood_min pic_white pixel.blue 1 1 ≤ ((averaged s).blue : Nat) ∧
          ((averaged s).blue : Nat) ≤ neighbourhood_max pic_white pixel.blue 1 1) :=
  ⟨⟨by decide, rfl, rfl⟩,
    C16_average_within_min_max pic_white pic_white 1 1 (by decide) rfl rfl⟩

/-! ## C17 : the caller's picture is never written -/

theorem issued_args_temp (MAX_THREADS : Nat) (mem : Int → Int → thread_arg)
    (pic_temp : picture) (x_divides y_divides : Int) :
    ∀ a ∈ issued_args MAX_THREADS mem pic_temp x_divides y_divides,
      a.pic_initial = pic_ref.temp := by
  intro a ha
  unfold issued_args at ha
  rw [List.mem_map] at ha
  obtain ⟨c, _, rfl⟩ := ha
  rfl

theorem issued_args_area (MAX_THREADS : Nat) (mem : Int → Int → thread_arg)
    (pic_temp : picture) (x_divides y_divides : Int) :
    (issued_args MAX_THREADS mem pic_temp x_divides y_divides).map thread_arg.area
      = issued_workers MAX_THREADS (fun x y => (mem x y).area) pic_temp x_divides y_divides := by
  unfold issued_args issued_workers
  rw [List.map_map]
  rfl

/-- Threads whose pointer designates the temporary copy act on it as the
workers of their sections do, and leave the caller's picture alone. -/
theorem run_threads_temp (order : List thread_arg) (st : store)
    (h : ∀ a ∈ order, a.pic_initial = pic_ref.temp) :
    run_threads order st
      = (run_workers (order.map thread_arg.area) st.temp).map
          fun p => { st with temp := p } := by
  induction order generalizing st with
  | nil => rfl
  | cons a order ih =>
    unfold run_threads run_workers at ih ⊢
    rw [List.foldlM_cons, List.map_cons, List.foldlM_cons]
    have ha : blur_section_at a st
        = (blur_section a.area st.temp).map fun p => { st with temp := p } := by
      unfold blur_section_at
      rw [h a (List.mem_cons_self _ _)]
    rw [ha]
    cases hb : blur_section a.area st.temp with
    | none => rfl
    | some q =>
      simp only [Option.map_some', Option.bind_eq_bind, Option.some_bind]
      exact ih { st with temp := q } (fun a' ha' => h a' (List.mem_cons_of_mem _ ha'))

/-- A call of `run_exprmt` with at least one column and one row returns with
the caller's picture as it was. -/
theorem run_exprmt_caller_eq (MAX_THREADS : Nat) (mem : Int → Int → thread_arg)
    (pic : picture) (x_divides y_divides : Int) (hx : 1 ≤ x_divides) (hy : 1 ≤ y_divides) :
    run_exprmt_caller MAX_THREADS mem pic x_divides y_divides = some pic := by
  unfold run_exprmt_caller
  simp only
  rw [run_threads_temp _ _ (issued_args_temp _ _ _ _ _), issued_args_area]
  obtain ⟨p, hp, _⟩ := run_workers_inside _ (copy_picture pic)
    (issued_workers_inside MAX_THREADS (fun x y => (mem x y).area) (copy_picture pic)
      x_divides y_divides hx hy)
  rw [hp]
  rfl

theorem run_experiments_eq (MAX_THREADS : Nat) (mem : Int → Int → thread_arg)
    (es : List (Int × Int)) (pic : picture) (h : ∀ e ∈ es, 1 ≤ e.1 ∧ 1 ≤ e.2) :
    run_experiments MAX_THREADS mem es pic = some (List.replicate es.length pic, pic) := by
  induction es with
  | nil => rfl
  | cons e es ih =>
    have he := h e (List.mem_cons_self _ _)
    unfold run_experiments
    rw [run_exprmt_caller_eq MAX_THREADS mem pic e.1 e.2 he.1 he.2, Option.some_bind,
      ih (fun e' he' => h e' (List.mem_cons_of_mem _ he'))]
    rfl

/-- C17.  `run_exprmt` never writes to the picture its caller passes in: every
issued worker holds the pointer to the copy `pic_temp` made at the start, so
for every grid with columns ≥ 1 and rows ≥ 1 and every order of the workers
the run completes with the caller's picture as it was before, all writes (those
of the workers of the issued sections) being in the copy; and for a picture
with width ≥ 3 and height ≥ 3 each of the ten experiments of `main` starts
from the original picture, which is also the picture of `main` after the
loop. -/
theorem C17_caller_picture_unchanged (MAX_THREADS : Nat) (mem : Int → Int → thread_arg)
    (pic : picture) (columns rows : Int) (hc : 1 ≤ columns) (hr : 1 ≤ rows)
    (hw : 3 ≤ pic.width) (hh : 3 ≤ pic.height) (order : List thread_arg)
    (horder : order.Perm (issued_args MAX_THREADS mem (copy_picture pic) columns rows)) :
    (∀ a ∈ issued_args MAX_THREADS mem (copy_picture pic) columns rows,
        a.pic_initial = pic_ref.temp) ∧
      (∃ st, run_threads order { caller := pic, temp := copy_picture pic } = some st ∧
        st.caller = pic ∧
        run_workers (order.map thread_arg.area) (copy_picture pic) = some st.temp) ∧
      run_exprmt_caller MAX_THREADS mem pic columns rows = some pic ∧
      run_experiments MAX_THREADS mem (experiments pic) pic
        = some (List.replicate 10 pic, pic) := by
  refine ⟨issued_args_temp _ _ _ _ _, ?_, run_exprmt_caller_eq _ _ _ _ _ hc hr, ?_⟩
  · have htemp : ∀ a ∈ order, a.pic_initial = pic_ref.temp :=
      fun a ha => issued_args_temp _ _ _ _ _ a (horder.mem_iff.1 ha)
    have hin : ∀ w ∈ order.map thread_arg.area,
        ∀ i j, in_section w i j → interior (copy_picture pic) i j := by
      intro w hw'
      refine issued_workers_inside MAX_THREADS (fun x y => (mem x y).area) (copy_picture pic)
        columns rows hc hr w ?_
      rw [← issued_args_area]
      exact ((horder.map thread_arg.area).mem_iff).1 hw'
    obtain ⟨p, hp, _⟩ := run_workers_inside _ (copy_picture pic) hin
    refine ⟨{ caller := pic, temp := p }, ?_, rfl, hp⟩
    rw [run_threads_temp _ _ htemp]
    simp only [hp, Option.map_some']
  · refine run_experiments_eq MAX_THREADS mem (experiments pic) pic ?_
    intro e he
    simp only [experiments, List.mem_cons, List.mem_singleton, List.not_mem_nil, or_false]
      at he
    rcases he with rfl | rfl | rfl | rfl | rfl | rfl | rfl | rfl | rfl | rfl <;>
      constructor <;> simp only <;> omega

/-- Instance of C17 on `pic_4x3` with 2 columns and 1 row, the workers in the
reverse of the issue order. -/
theorem C17_caller_picture_unchanged_witness :
    (1 ≤ (2 : Int) ∧ 1 ≤ (1 : Int) ∧ 3 ≤ pic_4x3.width ∧ 3 ≤ pic_4x3.height) ∧
      ((∀ a ∈ issued_args 1000 mem_args0 (copy_picture pic_4x3) 2 1,
          a.pic_initial = pic_ref.temp) ∧
        (∃ st, run_threads (issued_args 1000 mem_args0 (copy_picture pic_4x3) 2 1).reverse
            { caller := pic_4x3, temp := copy_picture pic_4x3 } = some st ∧
          st.caller = pic_4x3 ∧
          run_workers
              ((issued_args 1000 mem_args0 (copy_picture pic_4x3) 2 1).reverse.map
                thread_arg.area)
              (copy_picture pic_4x3) = some st.temp) ∧
        run_exprmt_caller 1000 mem_args0 pic_4x3 2 1 = some pic_4x3 ∧
        run_experiments 1000 mem_args0 (experiments pic_4x3) pic_4x3
          = some (List.replicate 10 pic_4x3, pic_4x3)) :=
  ⟨by decide,
    C17_caller_picture_unchanged 1000 mem_args0 pic_4x3 2 1 (by decide) (by decide)
      (by decide) (by decide) _ (List.reverse_perm _)⟩

end BlurExprmt
